import Mathlib

/-!
ttacon/ping: a verification development.

Shallow embedding of `ping.go`.

* Text is a `String`; the regular-expression engine works on its list of
  characters (`String.data`), one list element per rune.
* The two patterns of the source are given as syntax trees (`Regex`), the
  result of parsing the pattern literals handed to `regexp.MustCompile`.
* Matching follows the documented semantics of Go's `regexp` package:
  a match begins as early as possible in the input and, among the matches
  beginning there, is the one a backtracking search finds first; `x+` is
  greedy, `\d` is an ASCII digit, `.` is any character but a newline.
  `run` lists the threads of the backtracking search in the order in which
  that search would reach them.
* `PingExec` talks to an operating-system process.  The outcome of each
  process step is an input of the model (`ProcEnv`), and the steps performed
  are recorded in an event trace.
* Go's `int` and `time.Duration` are 64-bit signed integers: `Int` with an
  explicit wrap-around.
-/

namespace Ping

/-! ## Data model -/

/-- PingStatistics holds the four timing fields and the three packet fields,
all kept as text. -/
structure PingStatistics where
  RoundTripMin : String
  RoundTripAvg : String
  RoundTripMax : String
  RoundTripStdDev : String
  PacketsSent : String
  PacketsReceived : String
  PacketLoss : String
deriving DecidableEq, Repr

/-- AsMap builds the map literal of the source; a Go map literal with
pairwise distinct constant keys is modelled as the list of its entries. -/
def PingStatistics.AsMap (p : PingStatistics) : List (String × String) :=
  [ ("roundTripMin", p.RoundTripMin),
    ("roundTripAvg", p.RoundTripAvg),
    ("roundTripMax", p.RoundTripMax),
    ("roundTripStdDev", p.RoundTripStdDev),
    ("packetsSent", p.PacketsSent),
    ("packetsReceived", p.PacketsReceived),
    ("packetLoss", p.PacketLoss) ]

/-- Reading `m[k]` in a Go map: the value and whether the key is present. -/
def mapIndex (m : List (String × String)) (k : String) : Option String :=
  m.lookup k

/-- The zero value `PingStatistics{}`. -/
def emptyPing : PingStatistics :=
  { RoundTripMin := "", RoundTripAvg := "", RoundTripMax := "", RoundTripStdDev := "",
    PacketsSent := "", PacketsReceived := "", PacketLoss := "" }

/-! ## Regular expressions (the part of Go's `regexp` the source uses) -/

/-- Syntax trees of the patterns: a literal string (non-empty), `\d`, `.`,
concatenation, greedy `+`, and a numbered capture group. -/
inductive Regex where
  | lit (c : Char) (cs : List Char)
  | digit
  | anyNotNL
  | cat (a b : Regex)
  | plus (a : Regex)
  | group (k : Nat) (a : Regex)
deriving DecidableEq, Repr

/-- A thread of the backtracking search: the text still to be read and the
text captured so far by each group (index 0 is the whole match). -/
structure Thread where
  rest : List Char
  caps : List (List Char)
deriving DecidableEq, Repr

/-- The text left after the literal `l`, when the text starts with `l`. -/
def dropLit : List Char → List Char → Option (List Char)
  | [], s => some s
  | _ :: _, [] => none
  | c :: cs, x :: xs => if x = c then dropLit cs xs else none

/-- Greedy repetition of a step `f`, one or more times: after each
successful step the search first tries to repeat, then to stop.  The fuel is
the number of characters left, and each repetition has to consume one. -/
def plusRun (f : Thread → List Thread) : Nat → Thread → List Thread
  | 0, st => f st
  | n + 1, st =>
    (f st).flatMap fun st1 =>
      (if st1.rest.length < st.rest.length then plusRun f n st1 else []) ++ [st1]

/-- All threads that match `r` at the start of the text of `st`, in the order
of a backtracking search (leftmost-first priority). -/
def run : Regex → Thread → List Thread
  | .lit c cs, st =>
    match dropLit (c :: cs) st.rest with
    | some r => [{ st with rest := r }]
    | none => []
  | .digit, st =>
    match st.rest with
    | x :: xs => if x.isDigit then [{ st with rest := xs }] else []
    | [] => []
  | .anyNotNL, st =>
    match st.rest with
    | x :: xs => if x ≠ '\n' then [{ st with rest := xs }] else []
    | [] => []
  | .cat a b, st => (run a st).flatMap (run b)
  | .plus a, st => plusRun (run a) st.rest.length st
  | .group k a, st =>
    (run a st).map fun st1 =>
      { st1 with caps := st1.caps.set k (st.rest.take (st.rest.length - st1.rest.length)) }

/-- A compiled pattern: its syntax tree and its number of capture groups. -/
structure Regexp where
  prog : Regex
  numSubexp : Nat

/-- The preferred match of `re` that starts exactly at the beginning of `s`:
the submatches (index 0 the whole match) and the text after the match. -/
def matchAt (re : Regexp) (s : List Char) : Option (List (List Char) × List Char) :=
  match run re.prog { rest := s, caps := List.replicate (re.numSubexp + 1) [] } with
  | [] => none
  | st :: _ => some (st.caps.set 0 (s.take (s.length - st.rest.length)), st.rest)

/-- The leftmost match: the first position of `s`, from the left, at which
`matchAt` succeeds. -/
def findFirst (re : Regexp) : List Char → Option (List (List Char) × List Char)
  | [] => matchAt re []
  | c :: cs =>
    match matchAt re (c :: cs) with
    | some m => some m
    | none => findFirst re cs

/-- The loop of `FindAllStringSubmatch`: at most `n` successive
non-overlapping matches, each search starting where the last match ended.
(No pattern of `Regex` matches the empty string, so the loop's branch for an
empty match is never taken.) -/
def findAllLoop (re : Regexp) : Nat → List Char → List (List (List Char))
  | 0, _ => []
  | n + 1, s =>
    match findFirst re s with
    | none => []
    | some (m, rest) => m :: findAllLoop re n rest

/-- FindAllStringSubmatch(s, n): a negative `n` stands for `len(s) + 1`. -/
def Regexp.FindAllStringSubmatch (re : Regexp) (s : String) (n : Int) : List (List String) :=
  let limit : Nat := if n < 0 then s.data.length + 1 else n.toNat
  (findAllLoop re limit s.data).map fun m => m.map String.mk

/-- The pattern `\d+.\d+` of one timing value or of the loss percentage. -/
def numberShape : Regex :=
  .cat (.plus .digit) (.cat .anyNotNL (.plus .digit))

/-- statsRegexp is `(\d+.\d+)/(\d+.\d+)/(\d+.\d+)/(\d+.\d+)`. -/
def statsRegexp : Regexp :=
  { prog :=
      .cat (.group 1 numberShape) (.cat (.lit '/' [])
        (.cat (.group 2 numberShape) (.cat (.lit '/' [])
          (.cat (.group 3 numberShape) (.cat (.lit '/' [])
            (.group 4 numberShape))))))
    numSubexp := 4 }

/-- packetLossRegexp is
`(\d+) packets transmitted, (\d+) packets received, (\d+.\d+)% packet loss`. -/
def packetLossRegexp : Regexp :=
  { prog :=
      .cat (.group 1 (.plus .digit)) (.cat (.lit ' ' "packets transmitted, ".data)
        (.cat (.group 2 (.plus .digit)) (.cat (.lit ' ' "packets received, ".data)
          (.cat (.group 3 numberShape) (.lit '%' " packet loss".data)))))
    numSubexp := 3 }

/-! ## Extraction -/

/-- timingStatsFromPing returns `none` for Go's `nil` slice. -/
def timingStatsFromPing (str : String) : Option (List String) :=
  let found := statsRegexp.FindAllStringSubmatch str (-1)
  match found with
  | [] => none
  | vals :: _ => some [vals.getD 1 "", vals.getD 2 "", vals.getD 3 "", vals.getD 4 ""]

/-- packetStatsFromPing returns `none` for Go's `nil` slice. -/
def packetStatsFromPing (str : String) : Option (List String) :=
  let found := packetLossRegexp.FindAllStringSubmatch str (-1)
  match found with
  | [] => none
  | vals :: _ => some [vals.getD 1 "", vals.getD 2 "", vals.getD 3 ""]

/-! ## The probe -/

/-- An error value: one handed back by a process step (`os/exec`, `os`,
`io`), or one made by `errors.New` in this program. -/
inductive GoError where
  | os (msg : String)
  | new (msg : String)
deriving DecidableEq, Repr

/-- The calls `PingExec` makes to the outside world. -/
inductive Event where
  | command (name host : String)
  | stdoutPipe
  | start
  | sleep (ns : Int)
  | signalInterrupt
  | read (size : Nat)
  | wait
deriving DecidableEq, Repr

/-- What the outside world answers to each step of one invocation: the
error of each fallible step (`none` for `nil`), and for `stdout.Read(buf)`
the bytes `buf[0:n]` it delivered. -/
structure ProcEnv where
  pipeErr : Option String
  startErr : Option String
  signalErr : Option String
  readData : String
  readErr : Option String
  waitErr : Option String
deriving DecidableEq, Repr

/-- What an invocation gives back (`stats`, `err`) together with the calls
it made, in order. -/
structure Outcome where
  stats : PingStatistics
  err : Option GoError
  trace : List Event
deriving DecidableEq, Repr

/-- Reduction of an integer to the 64-bit signed range (two's complement). -/
def wrapInt64 (x : Int) : Int :=
  (x + 2 ^ 63) % 2 ^ 64 - 2 ^ 63

/-- The constant `time.Second`, in nanoseconds. -/
def timeSecond : Int := 1000000000

/-- The value of `time.Second * time.Duration(pingDuration)`. -/
def pingWait (pingDuration : Int) : Int :=
  wrapInt64 (timeSecond * wrapInt64 pingDuration)

/-- The error of the parse step, `errors.New("failed to parse ping output")`. -/
def parseError : GoError := .new "failed to parse ping output"

/-- PingExec, line by line; every `return` of the source is one leaf. -/
def PingExec (host : String) (pingDuration : Int) (env : ProcEnv) : Outcome :=
  let t0 : List Event := [.command "ping" host, .stdoutPipe]
  match env.pipeErr with
  | some e => { stats := emptyPing, err := some (.os e), trace := t0 }
  | none =>
  let t1 := t0 ++ [.start]
  match env.startErr with
  | some e => { stats := emptyPing, err := some (.os e), trace := t1 }
  | none =>
  let t2 := t1 ++ [.sleep (pingWait pingDuration), .signalInterrupt]
  match env.signalErr with
  | some e => { stats := emptyPing, err := some (.os e), trace := t2 }
  | none =>
  let t3 := t2 ++ [.sleep timeSecond, .read 8192]
  match env.readErr with
  | some e => { stats := emptyPing, err := some (.os e), trace := t3 }
  | none =>
  let t4 := t3 ++ [.wait]
  match env.waitErr with
  | some e => { stats := emptyPing, err := some (.os e), trace := t4 }
  | none =>
  let tStats := timingStatsFromPing env.readData
  let pStats := packetStatsFromPing env.readData
  match tStats, pStats with
  | some t, some p =>
    { stats :=
        { RoundTripMin := t.getD 0 "", RoundTripAvg := t.getD 1 "",
          RoundTripMax := t.getD 2 "", RoundTripStdDev := t.getD 3 "",
          PacketsSent := p.getD 0 "", PacketsReceived := p.getD 1 "",
          PacketLoss := p.getD 2 "" },
      err := none, trace := t4 }
  | _, _ => { stats := emptyPing, err := some parseError, trace := t4 }

/-! ## The language of a pattern -/

/-- The texts a pattern matches, read off the pattern alone: the declarative
counterpart of `run`. -/
def Lang : Regex → List Char → Prop
  | .lit c cs, m => m = c :: cs
  | .digit, m => ∃ x : Char, x.isDigit = true ∧ m = [x]
  | .anyNotNL, m => ∃ x : Char, x ≠ '\n' ∧ m = [x]
  | .cat a b, m => ∃ u v, m = u ++ v ∧ Lang a u ∧ Lang b v
  | .plus a, m => ∃ us : List (List Char), us ≠ [] ∧ m = us.flatten ∧ ∀ u ∈ us, Lang a u
  | .group _ a, m => Lang a m

/-- The text contains an occurrence of the pattern. -/
def Occurs (r : Regex) (s : List Char) : Prop :=
  ∃ pre m post, s = pre ++ m ++ post ∧ Lang r m

/-- No newline can be matched by the pattern. -/
def noNL : Regex → Bool
  | .lit c cs => !(c :: cs).contains '\n'
  | .digit => true
  | .anyNotNL => true
  | .cat a b => noNL a && noNL b
  | .plus a => noNL a
  | .group _ a => noNL a

/-- The pattern has no capture group. -/
def noGroup : Regex → Bool
  | .lit _ _ => true
  | .digit => true
  | .anyNotNL => true
  | .cat a b => noGroup a && noGroup b
  | .plus a => noGroup a
  | .group _ _ => false

/-- A non-empty string of decimal digits. -/
def isDigits (s : String) : Prop :=
  s.data ≠ [] ∧ ∀ c ∈ s.data, c.isDigit = true

/-- A decimal number: digits, a `.` character, digits. -/
def isDecimal (s : String) : Prop :=
  ∃ i f : String, isDigits i ∧ isDigits f ∧ s = i ++ "." ++ f

/-! ## Predicates, texts and inputs used in the statements -/

/-- Some match of the pattern starts at the very beginning of the text. -/
def StartsMatch (r : Regex) (s : List Char) : Prop :=
  ∃ m rest, s = m ++ rest ∧ Lang r m

/-- The text does not begin with a digit. -/
def headNotDigit (r : List Char) : Prop :=
  ∀ c ∈ r.head?, c.isDigit = false

/-- Every character is a decimal digit. -/
def allDigits (d : List Char) : Prop :=
  ∀ c ∈ d, c.isDigit = true

/-- A number-shaped text: digits, one character that is neither a digit nor a
newline, digits. -/
def NumberText (g : List Char) : Prop :=
  ∃ d x e, g = d ++ x :: e ∧ (d ≠ [] ∧ allDigits d) ∧ x.isDigit = false ∧ x ≠ '\n' ∧
    (e ≠ [] ∧ allDigits e)

/-- The packet line of the summary block. -/
def packetLine (x y z : String) : String :=
  x ++ " packets transmitted, " ++ y ++ " packets received, " ++ z ++ "% packet loss"

/-- The timing line of the summary block. -/
def timingLine (a b c d : String) : String :=
  "round-trip min/avg/max/stddev = " ++ a ++ "/" ++ b ++ "/" ++ c ++ "/" ++ d ++ " ms"

/-- A summary text: earlier output `pre`, the packet line, the timing
line on the next line, and whatever follows. -/
def summaryText (pre x y z a b c d post : String) : String :=
  pre ++ packetLine x y z ++ "\n" ++ timingLine a b c d ++ post

/-- Every process step of the invocation succeeds. -/
def stepsSucceed (env : ProcEnv) : Prop :=
  env.pipeErr = none ∧ env.startErr = none ∧ env.signalErr = none ∧ env.readErr = none ∧
    env.waitErr = none

instance isDigits.decide (s : String) : Decidable (isDigits s) := by
  unfold isDigits
  exact inferInstance

/-- The outside world of the example: every step succeeds and the single
read delivers the example text of the specification. -/
def exampleEnv : ProcEnv :=
  { pipeErr := none, startErr := none, signalErr := none,
    readData := "--- example.com ping statistics ---\n5 packets transmitted, 5 packets received, 0.0% packet loss\nround-trip min/avg/max/stddev = 110.555/112.243/113.908/1.307 ms",
    readErr := none, waitErr := none }

/-- The outside world in which the interrupt signal cannot be sent. -/
def signalFailsEnv : ProcEnv :=
  { pipeErr := none, startErr := none, signalErr := some "os: process already finished",
    readData := "", readErr := none, waitErr := none }

/-- The outside world in which the single read fails. -/
def readFailsEnv : ProcEnv :=
  { pipeErr := none, startErr := none, signalErr := none,
    readData := "", readErr := some "EOF", waitErr := none }

/-- The outside world in which the read delivers only a packet line. -/
def packetOnlyEnv : ProcEnv :=
  { pipeErr := none, startErr := none, signalErr := none,
    readData := "5 packets transmitted, 5 packets received, 0.0% packet loss",
    readErr := none, waitErr := none }

instance allDigits.decide (d : List Char) : Decidable (allDigits d) := by
  unfold allDigits
  exact inferInstance

/-- The outside world in which the read delivers a summary block whose loss
percentage is `0`. -/
def shortLossEnv : ProcEnv :=
  { pipeErr := none, startErr := none, signalErr := none,
    readData := "5 packets transmitted, 5 packets received, 0% packet loss\nround-trip min/avg/max/stddev = 110.555/112.243/113.908/1.307 ms",
    readErr := none, waitErr := none }

/-! ## Readings of a match and greedy preference -/

/-- The texts left after each non-empty prefix of digits of `s`, the longest
prefix first. -/
def digitSplits : List Char → List (List Char)
  | [] => []
  | c :: cs => if c.isDigit then digitSplits cs ++ [cs] else []

/-- The continuation `K` of a search fails on a thread exactly when the text
left to that thread does not satisfy `Q`. -/
def Tracks (K : Thread → List Thread) (Q : List Char → Prop) : Prop :=
  ∀ st, K st = [] ↔ ¬ Q st.rest

/-- One way of reading a text as `\d+.\d+`: the digits before the free
character, that character, and the digits after it. -/
structure NumParse where
  d : List Char
  x : Char
  e : List Char

/-- The text a reading stands for. -/
def NumParse.text (p : NumParse) : List Char :=
  p.d ++ p.x :: p.e

/-- The reading is one of `\d+.\d+`: both digit runs are non-empty runs of
digits and the free character is not a newline. -/
def NumParse.ok (p : NumParse) : Prop :=
  (p.d ≠ [] ∧ allDigits p.d) ∧ p.x ≠ '\n' ∧ (p.e ≠ [] ∧ allDigits p.e)

/-- The readings written one after the other with a `/` in between. -/
def slashJoin : List NumParse → List Char
  | [] => []
  | [p] => p.text
  | p :: q :: ps => p.text ++ '/' :: slashJoin (q :: ps)

/-- The lengths of the digit runs of the readings, in the order in which the
pattern meets them. -/
def greedKey (ps : List NumParse) : List Nat :=
  ps.flatMap fun p => [p.d.length, p.e.length]

/-- Lexicographic comparison of two lists of lengths. -/
def lexLe : List Nat → List Nat → Prop
  | [], _ => True
  | _ :: _, [] => False
  | a :: as, b :: bs => a < b ∨ (a = b ∧ lexLe as bs)

/-- The pattern of `n + 1` groups `(\d+.\d+)` numbered from `k` and separated
by `/`; the timing pattern is `chain 1 3`. -/
def chain : Nat → Nat → Regex
  | k, 0 => .group k numberShape
  | k, n + 1 => .cat (.group k numberShape) (.cat (.lit '/' []) (chain (k + 1) n))

/-- The captures after the groups numbered from `k` have captured the
readings `ps`. -/
def setCaps : Nat → List NumParse → List (List Char) → List (List Char)
  | _, [], caps => caps
  | k, p :: ps, caps => setCaps (k + 1) ps (caps.set k p.text)

/-! ## The search agrees with the language -/

theorem dropLit_eq_some (l s r : List Char) : dropLit l s = some r ↔ s = l ++ r := by
  induction l generalizing s with
  | nil => simp [dropLit, eq_comm]
  | cons c cs ih =>
    cases s with
    | nil => simp [dropLit]
    | cons x xs =>
      by_cases h : x = c
      · simp [dropLit, h, ih]
      · simp [dropLit, h]

theorem dropLit_append (l r : List Char) : dropLit l (l ++ r) = some r :=
  (dropLit_eq_some l (l ++ r) r).2 rfl

theorem Lang_ne_nil (r : Regex) (m : List Char) (h : Lang r m) : m ≠ [] := by
  induction r generalizing m with
  | lit c cs => simp [Lang] at h; simp [h]
  | digit => obtain ⟨x, _, rfl⟩ := h; simp
  | anyNotNL => obtain ⟨x, _, rfl⟩ := h; simp
  | cat a b iha _ =>
    obtain ⟨u, v, rfl, hu, _⟩ := h
    have := iha u hu
    simp [this]
  | plus a iha =>
    obtain ⟨us, hne, rfl, hall⟩ := h
    cases us with
    | nil => exact absurd rfl hne
    | cons u us' =>
      have := iha u (hall u (by simp))
      simp [this]
  | group k a iha => exact iha m h

theorem plusRun_sound (f : Thread → List Thread) (L : List Char → Prop)
    (hf : ∀ st st1, st1 ∈ f st → ∃ m, L m ∧ st.rest = m ++ st1.rest) :
    ∀ n st st1, st1 ∈ plusRun f n st →
      ∃ us : List (List Char), us ≠ [] ∧ (∀ u ∈ us, L u) ∧ st.rest = us.flatten ++ st1.rest := by
  intro n
  induction n with
  | zero =>
    intro st st1 h
    obtain ⟨m, hm, e⟩ := hf st st1 h
    exact ⟨[m], by simp, by simpa using hm, by simpa using e⟩
  | succ n ih =>
    intro st st1 h
    simp only [plusRun, List.mem_flatMap, List.mem_append, List.mem_singleton] at h
    obtain ⟨st2, h2, h3⟩ := h
    obtain ⟨m, hm, e⟩ := hf st st2 h2
    rcases h3 with h3 | h3
    · split at h3
      · obtain ⟨us, _, hall, e2⟩ := ih st2 st1 h3
        refine ⟨m :: us, by simp, ?_, ?_⟩
        · intro u hu
          rcases List.mem_cons.1 hu with rfl | hu
          · exact hm
          · exact hall u hu
        · simp [e, e2]
      · simp at h3
    · subst h3
      exact ⟨[m], by simp, by simpa using hm, by simpa using e⟩

theorem plusRun_complete (f : Thread → List Thread) (L : List Char → Prop)
    (hne : ∀ m, L m → m ≠ [])
    (hf : ∀ m, L m → ∀ st rest1, st.rest = m ++ rest1 → ∃ st1 ∈ f st, st1.rest = rest1) :
    ∀ n (us : List (List Char)), us ≠ [] → (∀ u ∈ us, L u) → ∀ st rest1,
      st.rest = us.flatten ++ rest1 → st.rest.length ≤ n →
      ∃ st1 ∈ plusRun f n st, st1.rest = rest1 := by
  intro n
  induction n with
  | zero =>
    intro us hus hall st rest1 e hlen
    cases us with
    | nil => exact absurd rfl hus
    | cons u us1 =>
      have hu := hne u (hall u (by simp))
      have : st.rest = [] := List.length_eq_zero.1 (Nat.le_zero.1 hlen)
      rw [this] at e
      simp at e
      exact absurd e.1 hu
  | succ n ih =>
    intro us hus hall st rest1 e hlen
    cases us with
    | nil => exact absurd rfl hus
    | cons u us1 =>
      have hu := hne u (hall u (by simp))
      have e1 : st.rest = u ++ (us1.flatten ++ rest1) := by simpa using e
      obtain ⟨st2, h2, e2⟩ := hf u (hall u (by simp)) st _ e1
      have hlt : st2.rest.length < st.rest.length := by
        rw [e1, e2]
        have : 0 < u.length := List.length_pos.2 hu
        simp only [List.length_append]
        omega
      simp only [plusRun, List.mem_flatMap, List.mem_append, List.mem_singleton]
      by_cases hnil : us1 = []
      · subst hnil
        exact ⟨st2, ⟨st2, h2, Or.inr rfl⟩, by simpa using e2⟩
      · obtain ⟨st3, h3, e3⟩ := ih us1 hnil (fun v hv => hall v (by simp [hv])) st2 rest1 e2
          (by omega)
        exact ⟨st3, ⟨st2, h2, Or.inl (by simpa [hlt] using h3)⟩, e3⟩

theorem run_sound (r : Regex) : ∀ st st1, st1 ∈ run r st →
    ∃ m, Lang r m ∧ st.rest = m ++ st1.rest := by
  induction r with
  | lit c cs =>
    intro st st1 h
    simp only [run] at h
    split at h
    · rename_i r hr
      simp only [List.mem_singleton] at h
      subst h
      exact ⟨c :: cs, rfl, (dropLit_eq_some _ _ _).1 hr⟩
    · simp at h
  | digit =>
    intro st st1 h
    simp only [run] at h
    split at h
    · rename_i x xs hx
      split at h
      · rename_i hd
        simp only [List.mem_singleton] at h
        subst h
        exact ⟨[x], ⟨x, hd, rfl⟩, by simpa using hx⟩
      · simp at h
    · simp at h
  | anyNotNL =>
    intro st st1 h
    simp only [run] at h
    split at h
    · rename_i x xs hx
      split at h
      · rename_i hd
        simp only [List.mem_singleton] at h
        subst h
        exact ⟨[x], ⟨x, hd, rfl⟩, by simpa using hx⟩
      · simp at h
    · simp at h
  | cat a b iha ihb =>
    intro st st1 h
    simp only [run, List.mem_flatMap] at h
    obtain ⟨st2, h2, h3⟩ := h
    obtain ⟨u, hu, eu⟩ := iha st st2 h2
    obtain ⟨v, hv, ev⟩ := ihb st2 st1 h3
    exact ⟨u ++ v, ⟨u, v, rfl, hu, hv⟩, by simp [eu, ev]⟩
  | plus a iha =>
    intro st st1 h
    simp only [run] at h
    obtain ⟨us, hus, hall, e⟩ := plusRun_sound (run a) (Lang a) iha _ st st1 h
    exact ⟨us.flatten, ⟨us, hus, rfl, hall⟩, e⟩
  | group k a iha =>
    intro st st1 h
    simp only [run, List.mem_map] at h
    obtain ⟨st2, h2, rfl⟩ := h
    obtain ⟨u, hu, eu⟩ := iha st st2 h2
    exact ⟨u, hu, eu⟩

theorem run_complete (r : Regex) : ∀ m, Lang r m → ∀ st rest1, st.rest = m ++ rest1 →
    ∃ st1 ∈ run r st, st1.rest = rest1 := by
  induction r with
  | lit c cs =>
    intro m hm st rest1 e
    simp only [Lang] at hm
    subst hm
    have := (dropLit_eq_some (c :: cs) st.rest rest1).2 e
    simp [run, this]
  | digit =>
    intro m hm st rest1 e
    obtain ⟨x, hx, rfl⟩ := hm
    simp only [List.singleton_append] at e
    simp [run, e, hx]
  | anyNotNL =>
    intro m hm st rest1 e
    obtain ⟨x, hx, rfl⟩ := hm
    simp only [List.singleton_append] at e
    simp [run, e, hx]
  | cat a b iha ihb =>
    intro m hm st rest1 e
    obtain ⟨u, v, rfl, hu, hv⟩ := hm
    obtain ⟨st2, h2, e2⟩ := iha u hu st (v ++ rest1) (by simpa using e)
    obtain ⟨st3, h3, e3⟩ := ihb v hv st2 rest1 e2
    exact ⟨st3, by simpa only [run, List.mem_flatMap] using ⟨st2, h2, h3⟩, e3⟩
  | plus a iha =>
    intro m hm st rest1 e
    obtain ⟨us, hus, rfl, hall⟩ := hm
    simp only [run]
    exact plusRun_complete (run a) (Lang a) (Lang_ne_nil a) iha _ us hus hall st rest1 e
      (Nat.le_refl _)
  | group k a iha =>
    intro m hm st rest1 e
    obtain ⟨st2, h2, e2⟩ := iha m hm st rest1 e
    refine ⟨⟨st2.rest, st2.caps.set k (st.rest.take (st.rest.length - st2.rest.length))⟩,
      ?_, e2⟩
    simp only [run, List.mem_map]
    exact ⟨st2, h2, rfl⟩

theorem matchAt_eq_none_iff (re : Regexp) (s : List Char) :
    matchAt re s = none ↔ ¬ StartsMatch re.prog s := by
  unfold matchAt StartsMatch
  constructor
  · intro h ⟨m, rest, e, hm⟩
    obtain ⟨st1, h1, _⟩ := run_complete re.prog m hm
      { rest := s, caps := List.replicate (re.numSubexp + 1) [] } rest e
    split at h
    · rename_i hnil
      rw [hnil] at h1
      simp at h1
    · simp at h
  · intro h
    split
    · rfl
    · rename_i st tl hrun
      exfalso
      apply h
      obtain ⟨m, hm, e⟩ := run_sound re.prog
        { rest := s, caps := List.replicate (re.numSubexp + 1) [] } st (by rw [hrun]; simp)
      exact ⟨m, st.rest, e, hm⟩

theorem occurs_nil_iff (r : Regex) : Occurs r [] ↔ StartsMatch r [] := by
  constructor
  · rintro ⟨pre, m, post, e, hm⟩
    have e1 := e.symm
    simp only [List.append_eq_nil] at e1
    obtain ⟨⟨_, rfl⟩, rfl⟩ := e1
    exact ⟨[], [], rfl, hm⟩
  · rintro ⟨m, rest, e, hm⟩
    exact ⟨[], m, rest, by simpa using e, hm⟩

theorem occurs_cons_iff (r : Regex) (c : Char) (cs : List Char) :
    Occurs r (c :: cs) ↔ StartsMatch r (c :: cs) ∨ Occurs r cs := by
  constructor
  · rintro ⟨pre, m, post, e, hm⟩
    cases pre with
    | nil => exact Or.inl ⟨m, post, by simpa using e, hm⟩
    | cons x pre1 =>
      simp only [List.cons_append, List.cons.injEq] at e
      exact Or.inr ⟨pre1, m, post, e.2, hm⟩
  · rintro (⟨m, rest, e, hm⟩ | ⟨pre, m, post, e, hm⟩)
    · exact ⟨[], m, rest, by simpa using e, hm⟩
    · exact ⟨c :: pre, m, post, by simp [e], hm⟩

theorem findFirst_eq_none_iff (re : Regexp) (s : List Char) :
    findFirst re s = none ↔ ¬ Occurs re.prog s := by
  induction s with
  | nil => simp only [findFirst, matchAt_eq_none_iff, occurs_nil_iff]
  | cons c cs ih =>
    rw [occurs_cons_iff, not_or, ← ih, ← matchAt_eq_none_iff]
    simp only [findFirst]
    cases h : matchAt re (c :: cs) <;> simp

theorem findFirst_cons_of_none (re : Regexp) (c : Char) (cs : List Char)
    (h : matchAt re (c :: cs) = none) : findFirst re (c :: cs) = findFirst re cs := by
  simp [findFirst, h]

theorem findFirst_of_matchAt (re : Regexp) (s : List Char) (r : List (List Char) × List Char)
    (h : matchAt re s = some r) : findFirst re s = some r := by
  cases s with
  | nil => simpa [findFirst] using h
  | cons c cs => simp [findFirst, h]

theorem findFirst_append_skip (re : Regexp) (p s : List Char)
    (h : ∀ p1 p2, p = p1 ++ p2 → p2 ≠ [] → matchAt re (p2 ++ s) = none) :
    findFirst re (p ++ s) = findFirst re s := by
  induction p with
  | nil => rfl
  | cons c cs ih =>
    have h0 := h [] (c :: cs) rfl (by simp)
    rw [List.cons_append] at h0 ⊢
    rw [findFirst_cons_of_none re c _ h0]
    exact ih fun p1 p2 e hne => h (c :: p1) p2 (by simp [e]) hne

/-- Where the leftmost match is: the skipped text, the matched thread, and
the fact that no match starts inside the skipped text. -/
theorem findFirst_eq_some (re : Regexp) (s : List Char) (caps : List (List Char))
    (rest : List Char) (h : findFirst re s = some (caps, rest)) :
    ∃ pre suf st tl, s = pre ++ suf ∧
      run re.prog { rest := suf, caps := List.replicate (re.numSubexp + 1) [] } = st :: tl ∧
      caps = st.caps.set 0 (suf.take (suf.length - st.rest.length)) ∧ rest = st.rest ∧
      ∀ p1 p2, pre = p1 ++ p2 → p2 ≠ [] → ¬ StartsMatch re.prog (p2 ++ suf) := by
  have key : ∀ suf, matchAt re suf = some (caps, rest) →
      ∃ st tl, run re.prog { rest := suf, caps := List.replicate (re.numSubexp + 1) [] }
          = st :: tl ∧
        caps = st.caps.set 0 (suf.take (suf.length - st.rest.length)) ∧ rest = st.rest := by
    intro suf hm
    unfold matchAt at hm
    split at hm
    · simp at hm
    · rename_i st tl hrun
      simp only [Option.some.injEq, Prod.mk.injEq] at hm
      exact ⟨st, tl, hrun, hm.1.symm, hm.2.symm⟩
  induction s with
  | nil =>
    obtain ⟨st, tl, h1, h2, h3⟩ := key [] (by simpa [findFirst] using h)
    exact ⟨[], [], st, tl, rfl, h1, h2, h3, by
      intro p1 p2 e hne
      have := e.symm
      simp only [List.append_eq_nil] at this
      exact absurd this.2 hne⟩
  | cons c cs ih =>
    cases hm : matchAt re (c :: cs) with
    | some r =>
      simp only [findFirst, hm, Option.some.injEq] at h
      subst h
      obtain ⟨st, tl, h1, h2, h3⟩ := key (c :: cs) hm
      exact ⟨[], c :: cs, st, tl, rfl, h1, h2, h3, by
        intro p1 p2 e hne
        have := e.symm
        simp only [List.append_eq_nil] at this
        exact absurd this.2 hne⟩
    | none =>
      rw [findFirst_cons_of_none re c cs hm] at h
      obtain ⟨pre, suf, st, tl, e, h1, h2, h3, h4⟩ := ih h
      refine ⟨c :: pre, suf, st, tl, by simp [e], h1, h2, h3, ?_⟩
      intro p1 p2 e2 hne
      cases p1 with
      | nil =>
        simp only [List.nil_append] at e2
        subst e2
        rw [List.cons_append, ← e]
        exact (matchAt_eq_none_iff re _).1 hm
      | cons x p1t =>
        simp only [List.cons_append, List.cons.injEq] at e2
        exact h4 p1t p2 e2.2 hne

/-! ## Capture groups -/

theorem take_length_sub (g r : List Char) :
    (g ++ r).take ((g ++ r).length - r.length) = g := by
  have : (g ++ r).length - r.length = g.length := by simp
  rw [this, List.take_left]

theorem plusRun_caps (f : Thread → List Thread)
    (hf : ∀ st st1, st1 ∈ f st → st1.caps = st.caps) :
    ∀ n st st1, st1 ∈ plusRun f n st → st1.caps = st.caps := by
  intro n
  induction n with
  | zero => intro st st1 h; exact hf st st1 h
  | succ n ih =>
    intro st st1 h
    simp only [plusRun, List.mem_flatMap, List.mem_append, List.mem_singleton] at h
    obtain ⟨st2, h2, h3⟩ := h
    rcases h3 with h3 | h3
    · split at h3
      · rw [ih st2 st1 h3, hf st st2 h2]
      · simp at h3
    · rw [h3, hf st st2 h2]

theorem run_caps (r : Regex) (hr : noGroup r = true) :
    ∀ st st1, st1 ∈ run r st → st1.caps = st.caps := by
  induction r with
  | lit c cs =>
    intro st st1 h
    simp only [run] at h
    split at h
    · simp only [List.mem_singleton] at h; rw [h]
    · simp at h
  | digit =>
    intro st st1 h
    simp only [run] at h
    split at h
    · split at h
      · simp only [List.mem_singleton] at h; rw [h]
      · simp at h
    · simp at h
  | anyNotNL =>
    intro st st1 h
    simp only [run] at h
    split at h
    · split at h
      · simp only [List.mem_singleton] at h; rw [h]
      · simp at h
    · simp at h
  | cat a b iha ihb =>
    intro st st1 h
    simp only [noGroup, Bool.and_eq_true] at hr
    simp only [run, List.mem_flatMap] at h
    obtain ⟨st2, h2, h3⟩ := h
    rw [ihb hr.2 st2 st1 h3, iha hr.1 st st2 h2]
  | plus a iha =>
    intro st st1 h
    simp only [noGroup] at hr
    simp only [run] at h
    exact plusRun_caps (run a) (iha hr) _ st st1 h
  | group k a _ => simp [noGroup] at hr

/-- A thread that leaves a pattern without groups: it has read a text of the
pattern's language and captured nothing. -/
theorem run_plain_mem (r : Regex) (hr : noGroup r = true) (st st1 : Thread)
    (h : st1 ∈ run r st) :
    ∃ m, Lang r m ∧ st.rest = m ++ st1.rest ∧ st1.caps = st.caps := by
  obtain ⟨m, hm, e⟩ := run_sound r st st1 h
  exact ⟨m, hm, e, run_caps r hr st st1 h⟩

/-- A thread that leaves a group: the group has captured exactly the text the
thread has read inside it. -/
theorem run_group_mem (k : Nat) (r : Regex) (hr : noGroup r = true) (st st1 : Thread)
    (h : st1 ∈ run (.group k r) st) :
    ∃ g, Lang r g ∧ st.rest = g ++ st1.rest ∧ st1.caps = st.caps.set k g := by
  simp only [run, List.mem_map] at h
  obtain ⟨st2, h2, rfl⟩ := h
  obtain ⟨m, hm, e, hc⟩ := run_plain_mem r hr st st2 h2
  refine ⟨m, hm, e, ?_⟩
  simp only
  rw [hc, e, take_length_sub]

theorem noGroup_numberShape : noGroup numberShape = true := by decide

/-- The shape of every thread that leaves the timing pattern. -/
theorem run_stats_mem (s : List Char) (caps : List (List Char)) (st : Thread)
    (h : st ∈ run statsRegexp.prog { rest := s, caps := caps }) :
    ∃ g1 g2 g3 g4, Lang numberShape g1 ∧ Lang numberShape g2 ∧ Lang numberShape g3 ∧
      Lang numberShape g4 ∧
      s = g1 ++ '/' :: (g2 ++ '/' :: (g3 ++ '/' :: (g4 ++ st.rest))) ∧
      st.caps = (((caps.set 1 g1).set 2 g2).set 3 g3).set 4 g4 := by
  simp only [statsRegexp] at h
  simp only [run.eq_4, List.mem_flatMap] at h
  obtain ⟨a1, h1, a2, h2, a3, h3, a4, h4, a5, h5, a6, h6, h7⟩ := h
  obtain ⟨g1, l1, e1, c1⟩ := run_group_mem 1 _ noGroup_numberShape _ _ h1
  obtain ⟨m2, l2, e2, c2⟩ := run_plain_mem _ (by decide) _ _ h2
  obtain ⟨g2, l3, e3, c3⟩ := run_group_mem 2 _ noGroup_numberShape _ _ h3
  obtain ⟨m4, l4, e4, c4⟩ := run_plain_mem _ (by decide) _ _ h4
  obtain ⟨g3, l5, e5, c5⟩ := run_group_mem 3 _ noGroup_numberShape _ _ h5
  obtain ⟨m6, l6, e6, c6⟩ := run_plain_mem _ (by decide) _ _ h6
  obtain ⟨g4, l7, e7, c7⟩ := run_group_mem 4 _ noGroup_numberShape _ _ h7
  simp only [Lang] at l2 l4 l6
  subst l2 l4 l6
  refine ⟨g1, g2, g3, g4, l1, l3, l5, l7, ?_, ?_⟩
  · simp only at e1
    rw [e1, e2, e3, e4, e5, e6, e7]
    simp
  · rw [c7, c6, c5, c4, c3, c2, c1]

/-- The shape of every thread that leaves the packet pattern. -/
theorem run_packet_mem (s : List Char) (caps : List (List Char)) (st : Thread)
    (h : st ∈ run packetLossRegexp.prog { rest := s, caps := caps }) :
    ∃ g1 g2 g3, Lang (.plus .digit) g1 ∧ Lang (.plus .digit) g2 ∧ Lang numberShape g3 ∧
      s = g1 ++ (" packets transmitted, ".data ++ (g2 ++ (" packets received, ".data ++
        (g3 ++ ("% packet loss".data ++ st.rest))))) ∧
      st.caps = ((caps.set 1 g1).set 2 g2).set 3 g3 := by
  simp only [packetLossRegexp] at h
  simp only [run.eq_4, List.mem_flatMap] at h
  obtain ⟨a1, h1, a2, h2, a3, h3, a4, h4, a5, h5, h6⟩ := h
  obtain ⟨g1, l1, e1, c1⟩ := run_group_mem 1 _ (by decide) _ _ h1
  obtain ⟨m2, l2, e2, c2⟩ := run_plain_mem _ (by decide) _ _ h2
  obtain ⟨g2, l3, e3, c3⟩ := run_group_mem 2 _ (by decide) _ _ h3
  obtain ⟨m4, l4, e4, c4⟩ := run_plain_mem _ (by decide) _ _ h4
  obtain ⟨g3, l5, e5, c5⟩ := run_group_mem 3 _ noGroup_numberShape _ _ h5
  obtain ⟨m6, l6, e6, c6⟩ := run_plain_mem _ (by decide) _ _ h6
  simp only [Lang] at l2 l4 l6
  subst l2 l4 l6
  refine ⟨g1, g2, g3, l1, l3, l5, ?_, ?_⟩
  · simp only at e1
    rw [e1, e2, e3, e4, e5, e6]
  · rw [c6, c5, c4, c3, c2, c1]

/-! ## The two extractions, in terms of the leftmost match -/

theorem findAll_head (re : Regexp) (str : String) :
    re.FindAllStringSubmatch str (-1) =
      match findFirst re str.data with
      | none => []
      | some (m, rest) =>
        m.map String.mk :: (findAllLoop re str.data.length rest).map fun m => m.map String.mk := by
  have h : ((-1 : Int) < 0) := by decide
  simp only [Regexp.FindAllStringSubmatch, h, if_true, findAllLoop]
  cases findFirst re str.data with
  | none => rfl
  | some r => rfl

theorem timingStatsFromPing_eq (str : String) :
    timingStatsFromPing str = (findFirst statsRegexp str.data).map fun r =>
      [String.mk (r.1.getD 1 []), String.mk (r.1.getD 2 []), String.mk (r.1.getD 3 []),
        String.mk (r.1.getD 4 [])] := by
  unfold timingStatsFromPing
  rw [findAll_head]
  cases findFirst statsRegexp str.data with
  | none => rfl
  | some r =>
    have e : ("" : String) = String.mk [] := rfl
    simp only [Option.map_some', e, List.getD_map]

theorem packetStatsFromPing_eq (str : String) :
    packetStatsFromPing str = (findFirst packetLossRegexp str.data).map fun r =>
      [String.mk (r.1.getD 1 []), String.mk (r.1.getD 2 []), String.mk (r.1.getD 3 [])] := by
  unfold packetStatsFromPing
  rw [findAll_head]
  cases findFirst packetLossRegexp str.data with
  | none => rfl
  | some r =>
    have e : ("" : String) = String.mk [] := rfl
    simp only [Option.map_some', e, List.getD_map]

theorem lang_plus_digit (m : List Char) :
    Lang (.plus .digit) m ↔ m ≠ [] ∧ ∀ c ∈ m, c.isDigit = true := by
  constructor
  · intro h
    refine ⟨Lang_ne_nil _ m h, ?_⟩
    obtain ⟨us, _, rfl, hall⟩ := h
    intro c hc
    simp only [List.mem_flatten] at hc
    obtain ⟨u, hu, hcu⟩ := hc
    obtain ⟨x, hx, rfl⟩ := hall u hu
    simp only [List.mem_singleton] at hcu
    rw [hcu]; exact hx
  · rintro ⟨hne, hall⟩
    refine ⟨m.map fun c => [c], by simpa using hne, ?_, ?_⟩
    · clear hne hall
      induction m with
      | nil => rfl
      | cons c cs ih => simp [← ih]
    · intro u hu
      simp only [List.mem_map] at hu
      obtain ⟨c, hc, rfl⟩ := hu
      exact ⟨c, hall c hc, rfl⟩

theorem lang_numberShape (m : List Char) :
    Lang numberShape m ↔ ∃ d x e, m = d ++ x :: e ∧ (d ≠ [] ∧ ∀ c ∈ d, c.isDigit = true) ∧
      x ≠ '\n' ∧ (e ≠ [] ∧ ∀ c ∈ e, c.isDigit = true) := by
  simp only [numberShape, Lang.eq_4, Lang.eq_3, ← lang_plus_digit]
  constructor
  · rintro ⟨d, v, rfl, hd, w, e, rfl, ⟨x, hx, rfl⟩, he⟩
    exact ⟨d, x, e, rfl, hd, hx, he⟩
  · rintro ⟨d, x, e, rfl, hd, hx, he⟩
    exact ⟨d, x :: e, rfl, hd, [x], e, rfl, ⟨x, hx, rfl⟩, he⟩

/-- What a successful timing extraction returns and where it was found. -/
theorem timing_some_spec (str : String) (r : List String)
    (h : timingStatsFromPing str = some r) :
    ∃ pre g1 g2 g3 g4 post,
      str.data = pre ++ (g1 ++ '/' :: (g2 ++ '/' :: (g3 ++ '/' :: (g4 ++ post)))) ∧
      Lang numberShape g1 ∧ Lang numberShape g2 ∧ Lang numberShape g3 ∧ Lang numberShape g4 ∧
      r = [String.mk g1, String.mk g2, String.mk g3, String.mk g4] ∧
      ∀ p1 p2, pre = p1 ++ p2 → p2 ≠ [] → ¬ StartsMatch statsRegexp.prog
        (p2 ++ (g1 ++ '/' :: (g2 ++ '/' :: (g3 ++ '/' :: (g4 ++ post))))) := by
  rw [timingStatsFromPing_eq] at h
  cases hf : findFirst statsRegexp str.data with
  | none => simp [hf] at h
  | some res =>
    obtain ⟨caps, rest⟩ := res
    obtain ⟨pre, suf, st, tl, e, hrun, hcaps, hrest, hleft⟩ := findFirst_eq_some _ _ _ _ hf
    obtain ⟨g1, g2, g3, g4, l1, l2, l3, l4, es, hc⟩ :=
      run_stats_mem suf _ st (by rw [hrun]; simp)
    refine ⟨pre, g1, g2, g3, g4, st.rest, by rw [e, es], l1, l2, l3, l4, ?_, ?_⟩
    · rw [hf] at h
      simp only [Option.map_some', Option.some.injEq] at h
      rw [← h, hcaps, hc]
      simp [statsRegexp, List.replicate]
    · rw [← es]; exact hleft

/-- What a successful packet extraction returns and where it was found. -/
theorem packet_some_spec (str : String) (r : List String)
    (h : packetStatsFromPing str = some r) :
    ∃ pre g1 g2 g3 post,
      str.data = pre ++ (g1 ++ (" packets transmitted, ".data ++ (g2 ++
        (" packets received, ".data ++ (g3 ++ ("% packet loss".data ++ post)))))) ∧
      Lang (.plus .digit) g1 ∧ Lang (.plus .digit) g2 ∧ Lang numberShape g3 ∧
      r = [String.mk g1, String.mk g2, String.mk g3] ∧
      ∀ p1 p2, pre = p1 ++ p2 → p2 ≠ [] → ¬ StartsMatch packetLossRegexp.prog
        (p2 ++ (g1 ++ (" packets transmitted, ".data ++ (g2 ++
          (" packets received, ".data ++ (g3 ++ ("% packet loss".data ++ post))))))) := by
  rw [packetStatsFromPing_eq] at h
  cases hf : findFirst packetLossRegexp str.data with
  | none => simp [hf] at h
  | some res =>
    obtain ⟨caps, rest⟩ := res
    obtain ⟨pre, suf, st, tl, e, hrun, hcaps, hrest, hleft⟩ := findFirst_eq_some _ _ _ _ hf
    obtain ⟨g1, g2, g3, l1, l2, l3, es, hc⟩ :=
      run_packet_mem suf _ st (by rw [hrun]; simp)
    refine ⟨pre, g1, g2, g3, st.rest, by rw [e, es], l1, l2, l3, ?_, ?_⟩
    · rw [hf] at h
      simp only [Option.map_some', Option.some.injEq] at h
      rw [← h, hcaps, hc]
      simp [packetLossRegexp, List.replicate]
    · rw [← es]; exact hleft

/-! ## The preferred thread on text of the expected shape -/

theorem plusRun_of_nil (f : Thread → List Thread) (n : Nat) (st : Thread) (h : f st = []) :
    plusRun f n st = [] := by
  cases n <;> simp [plusRun, h]

theorem run_digit_nil (r : List Char) (caps : List (List Char)) (hr : headNotDigit r) :
    run .digit { rest := r, caps := caps } = [] := by
  cases r with
  | nil => simp [run]
  | cons c cs =>
    have : c.isDigit = false := hr c (by simp)
    simp [run, this]

theorem plusRun_digit_head (r : List Char) (caps : List (List Char)) (hr : headNotDigit r) :
    ∀ n (d : List Char), d ≠ [] → allDigits d → d.length ≤ n + 1 →
      (plusRun (run .digit) n { rest := d ++ r, caps := caps }).head?
        = some { rest := r, caps := caps } := by
  intro n
  induction n with
  | zero =>
    intro d hne hd hlen
    cases d with
    | nil => exact absurd rfl hne
    | cons x d1 =>
      have : d1 = [] := by
        simp only [List.length_cons] at hlen
        exact List.length_eq_zero.1 (by omega)
      subst this
      have hx : x.isDigit = true := hd x (by simp)
      simp [plusRun, run, hx]
  | succ n ih =>
    intro d hne hd hlen
    cases d with
    | nil => exact absurd rfl hne
    | cons x d1 =>
      have hx : x.isDigit = true := hd x (by simp)
      have hstep : run .digit { rest := x :: (d1 ++ r), caps := caps }
          = [{ rest := d1 ++ r, caps := caps }] := by simp [run, hx]
      rw [List.cons_append, plusRun, hstep]
      simp only [List.flatMap_cons, List.flatMap_nil, List.append_nil, List.length_cons,
        Nat.lt_succ_self, if_true]
      by_cases h1 : d1 = []
      · subst h1
        rw [List.nil_append, plusRun_of_nil _ _ _ (run_digit_nil r caps hr)]
        rfl
      · have := ih d1 h1 (fun c hc => hd c (by simp [hc]))
          (by simp only [List.length_cons] at hlen; omega)
        rw [List.head?_append, this]
        rfl

theorem run_plus_digit_head (d r : List Char) (caps : List (List Char)) (hne : d ≠ [])
    (hd : allDigits d) (hr : headNotDigit r) :
    (run (.plus .digit) { rest := d ++ r, caps := caps }).head?
      = some { rest := r, caps := caps } := by
  simp only [run]
  exact plusRun_digit_head r caps hr _ d hne hd (by simp; omega)

theorem head_flatMap_of_head (l : List Thread) (f : Thread → List Thread) (a b : Thread)
    (h1 : l.head? = some a) (h2 : (f a).head? = some b) : (l.flatMap f).head? = some b := by
  cases l with
  | nil => simp at h1
  | cons x xs =>
    simp only [List.head?_cons, Option.some.injEq] at h1
    subst h1
    rw [List.flatMap_cons, List.head?_append, h2]
    rfl

theorem run_cat_head (a b : Regex) (st st1 st2 : Thread)
    (h1 : (run a st).head? = some st1) (h2 : (run b st1).head? = some st2) :
    (run (.cat a b) st).head? = some st2 := by
  simp only [run]
  exact head_flatMap_of_head _ _ _ _ h1 h2

theorem run_group_head (k : Nat) (a : Regex) (g r : List Char) (caps caps1 : List (List Char))
    (h : (run a { rest := g ++ r, caps := caps }).head? = some { rest := r, caps := caps1 }) :
    (run (.group k a) { rest := g ++ r, caps := caps }).head?
      = some { rest := r, caps := caps1.set k g } := by
  simp only [run, List.head?_map, h, Option.map_some']
  rw [take_length_sub]

theorem run_lit_head (c : Char) (cs r : List Char) (caps : List (List Char)) :
    (run (.lit c cs) { rest := (c :: cs) ++ r, caps := caps }).head?
      = some { rest := r, caps := caps } := by
  simp only [run, dropLit_append]
  rfl

theorem run_numberShape_head (g r : List Char) (caps : List (List Char)) (hg : NumberText g)
    (hr : headNotDigit r) :
    (run numberShape { rest := g ++ r, caps := caps }).head?
      = some { rest := r, caps := caps } := by
  obtain ⟨d, x, e, rfl, ⟨hd1, hd2⟩, hx1, hx2, he1, he2⟩ := hg
  unfold numberShape
  have h1 := run_plus_digit_head d (x :: (e ++ r)) caps hd1 hd2
    (by intro c hc; simp only [List.head?_cons, Option.mem_def, Option.some.injEq] at hc
        rw [← hc]; exact hx1)
  have h2 : (run .anyNotNL { rest := x :: (e ++ r), caps := caps }).head?
      = some { rest := e ++ r, caps := caps } := by
    simp [run, hx2]
  have h3 := run_plus_digit_head e r caps he1 he2 hr
  have := run_cat_head _ _ _ _ _ h1 (run_cat_head _ _ _ _ _ h2 h3)
  simpa using this

theorem matchAt_of_head (re : Regexp) (s : List Char) (st : Thread)
    (h : (run re.prog { rest := s, caps := List.replicate (re.numSubexp + 1) [] }).head?
      = some st) :
    matchAt re s = some (st.caps.set 0 (s.take (s.length - st.rest.length)), st.rest) := by
  unfold matchAt
  split
  · rename_i hnil
    rw [hnil] at h
    simp at h
  · rename_i st1 tl hrun
    rw [hrun] at h
    simp only [List.head?_cons, Option.some.injEq] at h
    rw [h]

theorem headNotDigit_cons (c : Char) (r : List Char) (h : c.isDigit = false) :
    headNotDigit (c :: r) := by
  intro x hx
  simp only [List.head?_cons, Option.mem_def, Option.some.injEq] at hx
  rw [← hx]; exact h

/-- On four number-shaped texts separated by `/` and not followed by a
digit, the timing pattern matches all of it, each group one text. -/
theorem matchAt_stats (g1 g2 g3 g4 r : List Char) (h1 : NumberText g1) (h2 : NumberText g2)
    (h3 : NumberText g3) (h4 : NumberText g4) (hr : headNotDigit r) :
    matchAt statsRegexp (g1 ++ '/' :: (g2 ++ '/' :: (g3 ++ '/' :: (g4 ++ r))))
      = some ([g1 ++ '/' :: (g2 ++ '/' :: (g3 ++ '/' :: g4)), g1, g2, g3, g4], r) := by
  have hs : headNotDigit ('/' :: (g2 ++ '/' :: (g3 ++ '/' :: (g4 ++ r)))) :=
    headNotDigit_cons _ _ (by decide)
  have hs2 : headNotDigit ('/' :: (g3 ++ '/' :: (g4 ++ r))) := headNotDigit_cons _ _ (by decide)
  have hs3 : headNotDigit ('/' :: (g4 ++ r)) := headNotDigit_cons _ _ (by decide)
  have key := matchAt_of_head statsRegexp (g1 ++ '/' :: (g2 ++ '/' :: (g3 ++ '/' :: (g4 ++ r))))
    { rest := r, caps := ((((List.replicate 5 []).set 1 g1).set 2 g2).set 3 g3).set 4 g4 }
    (run_cat_head _ _ _ _ _ (run_group_head 1 _ g1 _ _ _ (run_numberShape_head g1 _ _ h1 hs))
      (run_cat_head _ _ _ _ _ (run_lit_head '/' [] _ _)
        (run_cat_head _ _ _ _ _ (run_group_head 2 _ g2 _ _ _ (run_numberShape_head g2 _ _ h2 hs2))
          (run_cat_head _ _ _ _ _ (run_lit_head '/' [] _ _)
            (run_cat_head _ _ _ _ _
              (run_group_head 3 _ g3 _ _ _ (run_numberShape_head g3 _ _ h3 hs3))
              (run_cat_head _ _ _ _ _ (run_lit_head '/' [] _ _)
                (run_group_head 4 _ g4 _ _ _ (run_numberShape_head g4 _ _ h4 hr))))))))
  rw [key]
  have e : g1 ++ '/' :: (g2 ++ '/' :: (g3 ++ '/' :: (g4 ++ r)))
      = (g1 ++ '/' :: (g2 ++ '/' :: (g3 ++ '/' :: g4))) ++ r := by simp
  simp only
  rw [e, take_length_sub]
  simp [List.replicate]

/-- On a packet line with number-shaped loss, the packet pattern matches the
line, each group one field. -/
theorem matchAt_packet (x y z r : List Char) (hx : x ≠ [] ∧ allDigits x)
    (hy : y ≠ [] ∧ allDigits y) (hz : NumberText z) :
    matchAt packetLossRegexp (x ++ (" packets transmitted, ".data ++ (y ++
      (" packets received, ".data ++ (z ++ ("% packet loss".data ++ r))))))
      = some ([x ++ (" packets transmitted, ".data ++ (y ++ (" packets received, ".data ++
          (z ++ "% packet loss".data)))), x, y, z], r) := by
  have key := matchAt_of_head packetLossRegexp (x ++ (" packets transmitted, ".data ++ (y ++
      (" packets received, ".data ++ (z ++ ("% packet loss".data ++ r))))))
    { rest := r, caps := (((List.replicate 4 []).set 1 x).set 2 y).set 3 z }
    (run_cat_head _ _ _ _ _
      (run_group_head 1 _ x _ _ _ (run_plus_digit_head x _ _ hx.1 hx.2
        (headNotDigit_cons ' ' _ (by decide))))
      (run_cat_head _ _ _ _ _ (run_lit_head ' ' "packets transmitted, ".data _ _)
        (run_cat_head _ _ _ _ _
          (run_group_head 2 _ y _ _ _ (run_plus_digit_head y _ _ hy.1 hy.2
            (headNotDigit_cons ' ' _ (by decide))))
          (run_cat_head _ _ _ _ _ (run_lit_head ' ' "packets received, ".data _ _)
            (run_cat_head _ _ _ _ _
              (run_group_head 3 _ z _ _ _ (run_numberShape_head z _ _ hz
                (headNotDigit_cons '%' _ (by decide))))
              (run_lit_head '%' " packet loss".data _ _))))))
  rw [key]
  have e : x ++ (" packets transmitted, ".data ++ (y ++
      (" packets received, ".data ++ (z ++ ("% packet loss".data ++ r)))))
      = (x ++ (" packets transmitted, ".data ++ (y ++ (" packets received, ".data ++
          (z ++ "% packet loss".data))))) ++ r := by simp
  simp only
  rw [e, take_length_sub]
  simp [List.replicate]

/-! ## Skipping text in which no match can start -/

theorem lang_noNL (r : Regex) (hr : noNL r = true) (m : List Char) (hm : Lang r m) :
    '\n' ∉ m := by
  induction r generalizing m with
  | lit c cs =>
    simp only [Lang] at hm
    subst hm
    simpa [noNL] using hr
  | digit =>
    obtain ⟨x, hx, rfl⟩ := hm
    intro h
    simp only [List.mem_singleton] at h
    rw [← h] at hx
    exact absurd hx (by decide)
  | anyNotNL =>
    obtain ⟨x, hx, rfl⟩ := hm
    intro h
    simp only [List.mem_singleton] at h
    exact hx h.symm
  | cat a b iha ihb =>
    simp only [noNL, Bool.and_eq_true] at hr
    obtain ⟨u, v, rfl, hu, hv⟩ := hm
    intro h
    rcases List.mem_append.1 h with h | h
    · exact iha hr.1 u hu h
    · exact ihb hr.2 v hv h
  | plus a iha =>
    simp only [noNL] at hr
    obtain ⟨us, _, rfl, hall⟩ := hm
    intro h
    obtain ⟨u, hu, hcu⟩ := List.mem_flatten.1 h
    exact iha hr u (hall u hu) hcu
  | group k a iha => exact iha (by simpa [noNL] using hr) m hm

theorem prefix_of_no_newline (m rest q s : List Char) (hm : '\n' ∉ m)
    (e : m ++ rest = q ++ '\n' :: s) : ∃ t, q = m ++ t := by
  rcases List.append_eq_append_iff.1 e with ⟨a, ha, _⟩ | ⟨c, hc, hc2⟩
  · exact ⟨a, ha⟩
  · cases c with
    | nil => exact ⟨[], by simpa using hc.symm⟩
    | cons x xs =>
      simp only [List.cons_append, List.cons.injEq] at hc2
      exfalso
      apply hm
      rw [hc, hc2.1]
      simp

/-- A line in which the pattern does not occur can be skipped: no match
reaches across its newline. -/
theorem findFirst_skip_line (re : Regexp) (hnl : noNL re.prog = true) (p s : List Char)
    (h : findFirst re (p ++ ['\n']) = none) :
    findFirst re (p ++ '\n' :: s) = findFirst re s := by
  have e : p ++ '\n' :: s = (p ++ ['\n']) ++ s := by simp
  rw [e]
  apply findFirst_append_skip
  intro p1 p2 e2 hne
  rw [matchAt_eq_none_iff]
  rintro ⟨m, rest, e3, hm⟩
  obtain ⟨q, hq⟩ : ∃ q, p2 = q ++ ['\n'] := by
    rcases List.eq_nil_or_concat p2 with h0 | ⟨q, c, hq⟩
    · exact absurd h0 hne
    · refine ⟨q, ?_⟩
      rw [hq, List.concat_eq_append, ← List.append_assoc] at e2
      have := (List.append_inj' e2 rfl).2
      simp only [List.cons.injEq, and_true] at this
      rw [hq, List.concat_eq_append, this]
  obtain ⟨t, ht⟩ := prefix_of_no_newline m rest q s (lang_noNL _ hnl m hm)
    (by rw [← e3, hq]; simp)
  rw [findFirst_eq_none_iff] at h
  apply h
  exact ⟨p1, m, t ++ ['\n'], by rw [e2, hq, ht]; simp, hm⟩

theorem dropWhile_digits (d r : List Char) (hd : allDigits d) :
    (d ++ r).dropWhile Char.isDigit = r.dropWhile Char.isDigit := by
  induction d with
  | nil => rfl
  | cons x xs ih =>
    have hx : x.isDigit = true := hd x (by simp)
    simp only [List.cons_append, List.dropWhile_cons, hx, if_true]
    exact ih fun c hc => hd c (by simp [hc])

theorem allDigits_of_suffix (p1 p2 d : List Char) (e : d = p1 ++ p2) (hd : allDigits d) :
    allDigits p2 := by
  intro c hc
  exact hd c (by rw [e]; simp [hc])

/-- A match of the timing pattern begins: digits, one character, digits, `/`. -/
theorem startsMatch_stats_nec (s : List Char) (h : StartsMatch statsRegexp.prog s) :
    ∃ d x e w, s = d ++ x :: (e ++ '/' :: w) ∧ (d ≠ [] ∧ allDigits d) ∧
      (e ≠ [] ∧ allDigits e) := by
  obtain ⟨m, rest, rfl, hm⟩ := h
  simp only [statsRegexp, Lang] at hm
  obtain ⟨u, v, rfl, hu, u2, v2, rfl, rfl, _⟩ := hm
  obtain ⟨d, x, e, rfl, hd, _, he⟩ := (lang_numberShape u).1 hu
  exact ⟨d, x, e, v2 ++ rest, by simp, hd, he⟩

/-- A match of the packet pattern begins: digits, ` packets transmitted, `. -/
theorem startsMatch_packet_nec (s : List Char) (h : StartsMatch packetLossRegexp.prog s) :
    ∃ d w, s = d ++ (" packets transmitted, ".data ++ w) ∧ (d ≠ [] ∧ allDigits d) := by
  obtain ⟨m, rest, rfl, hm⟩ := h
  simp only [packetLossRegexp, Lang] at hm
  obtain ⟨u, v, rfl, hu, u2, v2, rfl, rfl, _⟩ := hm
  exact ⟨u, v2 ++ rest, by simp, (lang_plus_digit u).1 (by simpa [Lang] using hu)⟩

theorem stats_starts_with_digit (s : List Char) (h : StartsMatch statsRegexp.prog s) :
    ∃ c t, s = c :: t ∧ c.isDigit = true := by
  obtain ⟨d, x, e, w, rfl, ⟨hd1, hd2⟩, _⟩ := startsMatch_stats_nec s h
  cases d with
  | nil => exact absurd rfl hd1
  | cons c t => exact ⟨c, _, rfl, hd2 c (by simp)⟩

theorem packet_starts_with_digit (s : List Char) (h : StartsMatch packetLossRegexp.prog s) :
    ∃ c t, s = c :: t ∧ c.isDigit = true := by
  obtain ⟨d, w, rfl, hd1, hd2⟩ := startsMatch_packet_nec s h
  cases d with
  | nil => exact absurd rfl hd1
  | cons c t => exact ⟨c, _, rfl, hd2 c (by simp)⟩

/-- Characters that are not digits are skipped by a pattern that starts with
a digit. -/
theorem findFirst_skip_nondigits (re : Regexp)
    (hre : ∀ s, StartsMatch re.prog s → ∃ c t, s = c :: t ∧ c.isDigit = true)
    (l s : List Char) (hl : ∀ c ∈ l, c.isDigit = false) :
    findFirst re (l ++ s) = findFirst re s := by
  apply findFirst_append_skip
  intro p1 p2 e hne
  rw [matchAt_eq_none_iff]
  intro h
  obtain ⟨c, t, e2, hc⟩ := hre _ h
  cases p2 with
  | nil => exact absurd rfl hne
  | cons x xs =>
    simp only [List.cons_append, List.cons.injEq] at e2
    have := hl x (by rw [e]; simp)
    rw [e2.1, hc] at this
    exact absurd this (by simp)

/-- No timing match starts in a run of digits that is followed by a
character other than `/`, more digits, and again a character other than `/`. -/
theorem stats_skip_digits (d1 d2 s : List Char) (c1 c2 : Char) (h1 : allDigits d1)
    (h2 : allDigits d2) (hc1 : c1.isDigit = false) (hc2 : c2.isDigit = false)
    (n1 : c1 ≠ '/') (n2 : c2 ≠ '/') :
    findFirst statsRegexp (d1 ++ c1 :: (d2 ++ c2 :: s))
      = findFirst statsRegexp (c1 :: (d2 ++ c2 :: s)) := by
  apply findFirst_append_skip
  intro p1 p2 e hne
  rw [matchAt_eq_none_iff]
  intro h
  obtain ⟨d, x, e0, w, e2, ⟨_, hd⟩, ⟨_, he⟩⟩ := startsMatch_stats_nec _ h
  have e3 := congrArg (List.dropWhile Char.isDigit) e2
  rw [dropWhile_digits _ _ (allDigits_of_suffix p1 p2 d1 e h1), dropWhile_digits _ _ hd,
    List.dropWhile_cons, List.dropWhile_cons] at e3
  simp only [hc1, Bool.false_eq_true, if_false] at e3
  by_cases hx : x.isDigit = true
  · simp only [hx, if_true] at e3
    rw [dropWhile_digits _ _ he, List.dropWhile_cons] at e3
    simp only [show ('/' : Char).isDigit = false by decide, Bool.false_eq_true, if_false,
      List.cons.injEq] at e3
    exact n1 e3.1
  · simp only [hx, Bool.false_eq_true, if_false, List.cons.injEq] at e3
    have e4 := congrArg (List.dropWhile Char.isDigit) e3.2
    rw [dropWhile_digits _ _ h2, dropWhile_digits _ _ he, List.dropWhile_cons,
      List.dropWhile_cons] at e4
    simp only [hc2, show ('/' : Char).isDigit = false by decide, Bool.false_eq_true, if_false,
      List.cons.injEq] at e4
    exact n2 e4.1

/-- No packet match starts in a run of digits unless ` packets transmitted, `
follows the digits. -/
theorem packet_skip_digits (d s : List Char) (hd : allDigits d)
    (h : ¬ ∃ w, s.dropWhile Char.isDigit = " packets transmitted, ".data ++ w) :
    findFirst packetLossRegexp (d ++ s) = findFirst packetLossRegexp s := by
  apply findFirst_append_skip
  intro p1 p2 e hne
  rw [matchAt_eq_none_iff]
  intro hs
  obtain ⟨d0, w, e2, ⟨_, hd0⟩⟩ := startsMatch_packet_nec _ hs
  have e3 := congrArg (List.dropWhile Char.isDigit) e2
  rw [dropWhile_digits _ _ (allDigits_of_suffix p1 p2 d e hd), dropWhile_digits _ _ hd0] at e3
  apply h
  refine ⟨w, ?_⟩
  rw [e3]
  simp [List.dropWhile_cons]

theorem matchAt_nil_stats : findFirst statsRegexp [] = none := by decide

theorem matchAt_nil_packet : findFirst packetLossRegexp [] = none := by decide

theorem stats_skip_char (c : Char) (s : List Char) (hc : c.isDigit = false) :
    findFirst statsRegexp (c :: s) = findFirst statsRegexp s :=
  findFirst_skip_nondigits statsRegexp stats_starts_with_digit [c] s
    (by intro x hx; simp only [List.mem_singleton] at hx; rw [hx]; exact hc)

theorem packet_skip_char (c : Char) (s : List Char) (hc : c.isDigit = false) :
    findFirst packetLossRegexp (c :: s) = findFirst packetLossRegexp s :=
  findFirst_skip_nondigits packetLossRegexp packet_starts_with_digit [c] s
    (by intro x hx; simp only [List.mem_singleton] at hx; rw [hx]; exact hc)

theorem stats_skip_digits0 (d s : List Char) (c1 c2 : Char) (h1 : allDigits d)
    (hc1 : c1.isDigit = false) (hc2 : c2.isDigit = false) (n1 : c1 ≠ '/') (n2 : c2 ≠ '/') :
    findFirst statsRegexp (d ++ c1 :: c2 :: s) = findFirst statsRegexp (c1 :: c2 :: s) :=
  stats_skip_digits d [] s c1 c2 h1 (by intro c hc; simp at hc) hc1 hc2 n1 n2

theorem packet_skip_digits_char (d s : List Char) (c : Char) (hd : allDigits d)
    (hc : c.isDigit = false) (n : c ≠ ' ') :
    findFirst packetLossRegexp (d ++ c :: s) = findFirst packetLossRegexp (c :: s) := by
  apply packet_skip_digits d _ hd
  rintro ⟨w, hw⟩
  simp only [List.dropWhile_cons, hc, Bool.false_eq_true, if_false] at hw
  simp at hw
  exact n hw.1

theorem packet_skip_digits_space (d s : List Char) (c : Char) (hd : allDigits d)
    (n : c ≠ 'p') :
    findFirst packetLossRegexp (d ++ ' ' :: c :: s)
      = findFirst packetLossRegexp (' ' :: c :: s) := by
  apply packet_skip_digits d _ hd
  rintro ⟨w, hw⟩
  simp only [List.dropWhile_cons, show (' ' : Char).isDigit = false by decide,
    Bool.false_eq_true, if_false] at hw
  simp at hw
  exact n hw.1

/-- The timing pattern does not occur in a packet line. -/
theorem stats_skip_packet_line (x y z1 z2 s : List Char) (hx : allDigits x) (hy : allDigits y)
    (h1 : allDigits z1) (h2 : allDigits z2) :
    findFirst statsRegexp (x ++ (" packets transmitted, ".data ++ (y ++
      (" packets received, ".data ++ (z1 ++ '.' :: (z2 ++ ("% packet loss".data ++ s)))))))
      = findFirst statsRegexp s := by
  simp only [List.cons_append, List.nil_append]
  rw [stats_skip_digits0 x _ ' ' 'p' hx (by decide) (by decide) (by decide) (by decide)]
  simp (disch := decide) only [stats_skip_char]
  rw [stats_skip_digits0 y _ ' ' 'p' hy (by decide) (by decide) (by decide) (by decide)]
  simp (disch := decide) only [stats_skip_char]
  rw [stats_skip_digits z1 z2 _ '.' '%' h1 h2 (by decide) (by decide) (by decide) (by decide)]
  rw [stats_skip_char _ _ (by decide)]
  rw [stats_skip_digits0 z2 _ '%' ' ' h2 (by decide) (by decide) (by decide) (by decide)]
  simp (disch := decide) only [stats_skip_char]

/-- The packet pattern does not occur in a timing line. -/
theorem packet_skip_timing_line (a1 a2 b1 b2 c1 c2 d1 d2 s : List Char) (ha1 : allDigits a1)
    (ha2 : allDigits a2) (hb1 : allDigits b1) (hb2 : allDigits b2) (hc1 : allDigits c1)
    (hc2 : allDigits c2) (hd1 : allDigits d1) (hd2 : allDigits d2) :
    findFirst packetLossRegexp ("round-trip min/avg/max/stddev = ".data ++
      (a1 ++ '.' :: (a2 ++ '/' :: (b1 ++ '.' :: (b2 ++ '/' :: (c1 ++ '.' :: (c2 ++ '/' ::
        (d1 ++ '.' :: (d2 ++ (" ms".data ++ s))))))))))
      = findFirst packetLossRegexp s := by
  simp only [List.cons_append, List.nil_append]
  simp (disch := decide) only [packet_skip_char]
  rw [packet_skip_digits_char a1 _ '.' ha1 (by decide) (by decide), packet_skip_char _ _ (by decide),
    packet_skip_digits_char a2 _ '/' ha2 (by decide) (by decide), packet_skip_char _ _ (by decide),
    packet_skip_digits_char b1 _ '.' hb1 (by decide) (by decide), packet_skip_char _ _ (by decide),
    packet_skip_digits_char b2 _ '/' hb2 (by decide) (by decide), packet_skip_char _ _ (by decide),
    packet_skip_digits_char c1 _ '.' hc1 (by decide) (by decide), packet_skip_char _ _ (by decide),
    packet_skip_digits_char c2 _ '/' hc2 (by decide) (by decide), packet_skip_char _ _ (by decide),
    packet_skip_digits_char d1 _ '.' hd1 (by decide) (by decide), packet_skip_char _ _ (by decide),
    packet_skip_digits_space d2 _ 'm' hd2 (by decide)]
  simp (disch := decide) only [packet_skip_char]

theorem short_loss_absurd (p d e t t1 : List Char) (x : Char) (hp : p.length < 3)
    (hd : d ≠ [] ∧ allDigits d) (he : e ≠ [] ∧ allDigits e)
    (h : p ++ '%' :: ' ' :: t = d ++ x :: (e ++ t1)) : False := by
  obtain ⟨hd1, hd2⟩ := hd
  obtain ⟨he1, he2⟩ := he
  have k1 : ¬ ('%' : Char).isDigit = true := by decide
  have k2 : ¬ (' ' : Char).isDigit = true := by decide
  rcases e with _ | ⟨e0, e1⟩
  · exact he1 rfl
  have he0 := he2 e0 (by simp)
  rcases d with _ | ⟨d0, _ | ⟨d1, _ | ⟨d2, d3⟩⟩⟩
  · exact hd1 rfl
  · rcases p with _ | ⟨a, _ | ⟨b, _ | ⟨c, q⟩⟩⟩
    · simp at h
      have := hd2 d0 (by simp)
      rw [← h.1] at this
      exact k1 this
    · simp at h
      rw [← h.2.2.1] at he0
      exact k2 he0
    · simp at h
      rw [← h.2.2.1] at he0
      exact k1 he0
    · simp at hp
      omega
  · have h0 := hd2 d0 (by simp)
    have h1 := hd2 d1 (by simp)
    rcases p with _ | ⟨a, _ | ⟨b, _ | ⟨c, q⟩⟩⟩
    · simp at h
      rw [← h.1] at h0
      exact k1 h0
    · simp at h
      rw [← h.2.1] at h1
      exact k1 h1
    · simp at h
      rw [← h.2.2.2.1] at he0
      exact k2 he0
    · simp at hp
      omega
  · have h0 := hd2 d0 (by simp)
    have h1 := hd2 d1 (by simp)
    have h2 := hd2 d2 (by simp)
    rcases p with _ | ⟨a, _ | ⟨b, _ | ⟨c, q⟩⟩⟩
    · simp at h
      rw [← h.1] at h0
      exact k1 h0
    · simp at h
      rw [← h.2.1] at h1
      exact k1 h1
    · simp at h
      rw [← h.2.2.1] at h2
      exact k1 h2
    · simp at hp
      omega

theorem digits_align (a b r r1 : List Char) (c c1 : Char) (ha : allDigits a) (hb : allDigits b)
    (hc : c.isDigit = false) (hc1 : c1.isDigit = false) (e : a ++ c :: r = b ++ c1 :: r1) :
    a = b ∧ c :: r = c1 :: r1 := by
  induction a generalizing b with
  | nil =>
    cases b with
    | nil => exact ⟨rfl, by simpa using e⟩
    | cons y ys =>
      simp only [List.nil_append, List.cons_append, List.cons.injEq] at e
      have := hb y (by simp)
      rw [← e.1, hc] at this
      exact absurd this (by simp)
  | cons x xs ih =>
    cases b with
    | nil =>
      simp only [List.nil_append, List.cons_append, List.cons.injEq] at e
      have := ha x (by simp)
      rw [e.1, hc1] at this
      exact absurd this (by simp)
    | cons y ys =>
      simp only [List.cons_append, List.cons.injEq] at e
      obtain ⟨h1, h2⟩ := ih ys (fun c hc => ha c (by simp [hc]))
        (fun c hc => hb c (by simp [hc])) e.2
      exact ⟨by rw [e.1, h1], h2⟩

/-- The texts of the packet pattern: two digit strings and a number-shaped
text inside the three literals. -/
theorem lang_packet (m : List Char) (hm : Lang packetLossRegexp.prog m) :
    ∃ g1 g2 d x e, m = g1 ++ (" packets transmitted, ".data ++ (g2 ++
        (" packets received, ".data ++ ((d ++ x :: e) ++ "% packet loss".data)))) ∧
      (g1 ≠ [] ∧ allDigits g1) ∧ (g2 ≠ [] ∧ allDigits g2) ∧
      (d ≠ [] ∧ allDigits d) ∧ x ≠ '\n' ∧ (e ≠ [] ∧ allDigits e) := by
  obtain ⟨u1, v1, rfl, h1, u2, v2, rfl, h2, u3, v3, rfl, h3, u4, v4, rfl, h4, u5, v5, rfl,
    h5, h6⟩ := hm
  have e2 : u2 = " packets transmitted, ".data := h2
  have e4 : u4 = " packets received, ".data := h4
  have e6 : v5 = "% packet loss".data := h6
  obtain ⟨d, x, e, rfl, hd, hx, he⟩ := (lang_numberShape u5).1 h5
  exact ⟨u1, u3, d, x, e, by rw [e2, e4, e6], (lang_plus_digit u1).1 h1,
    (lang_plus_digit u3).1 h3, hd, hx, he⟩

/-- No packet match starts inside the first count of a packet line whose
loss percentage has fewer than three characters. -/
theorem packet_no_start_short_loss (x y p s : List Char) (hx : allDigits x) (hy : allDigits y)
    (hp : p.length < 3) :
    ¬ StartsMatch packetLossRegexp.prog (x ++ (" packets transmitted, ".data ++ (y ++
      (" packets received, ".data ++ (p ++ ("% packet loss".data ++ s)))))) := by
  rintro ⟨m, rest, e, hm⟩
  obtain ⟨g1, g2, d, c, f, rfl, ⟨_, hg1⟩, ⟨_, hg2⟩, hd, _, hf⟩ := lang_packet m hm
  simp only [List.cons_append, List.nil_append, List.append_assoc] at e
  obtain ⟨_, e1⟩ := digits_align _ _ _ _ _ _ hx hg1 (by decide) (by decide) e
  simp only [List.cons.injEq, true_and] at e1
  obtain ⟨_, e2⟩ := digits_align _ _ _ _ _ _ hy hg2 (by decide) (by decide) e1
  simp only [List.cons.injEq, true_and] at e2
  exact short_loss_absurd p d f _ _ c hp hd hf e2

/-- No packet match starts inside a loss percentage of fewer than three
characters. -/
theorem packet_no_start_in_short_loss (q s : List Char) (hq : q.length < 3) :
    ¬ StartsMatch packetLossRegexp.prog (q ++ ("% packet loss".data ++ s)) := by
  intro h
  obtain ⟨d, w, e, hd1, hd2⟩ := startsMatch_packet_nec _ h
  have k1 : ¬ ('%' : Char).isDigit = true := by decide
  rcases d with _ | ⟨d0, _ | ⟨d1, _ | ⟨d2, d3⟩⟩⟩
  · exact hd1 rfl
  · rcases q with _ | ⟨a, _ | ⟨b, _ | ⟨c, q1⟩⟩⟩
    · simp at e
    · simp at e
    · simp at e
    · simp at hq
      omega
  · have h0 := hd2 d0 (by simp)
    have h1 := hd2 d1 (by simp)
    rcases q with _ | ⟨a, _ | ⟨b, _ | ⟨c, q1⟩⟩⟩
    · simp at e
    · simp at e
    · simp at e
    · simp at hq
      omega
  · have h0 := hd2 d0 (by simp)
    have h1 := hd2 d1 (by simp)
    have h2 := hd2 d2 (by simp)
    rcases q with _ | ⟨a, _ | ⟨b, _ | ⟨c, q1⟩⟩⟩
    · simp at e
      rw [← e.1] at h0
      exact k1 h0
    · simp at e
      rw [← e.2.1] at h1
      exact k1 h1
    · simp at e
      rw [← e.2.2.1] at h2
      exact k1 h2
    · simp at hq
      omega

/-- The packet pattern does not occur in a packet line whose loss percentage
has fewer than three characters. -/
theorem packet_skip_short_loss (x y p s : List Char) (hx : allDigits x) (hy : allDigits y)
    (hp : p.length < 3) :
    findFirst packetLossRegexp (x ++ (" packets transmitted, ".data ++ (y ++
      (" packets received, ".data ++ (p ++ ("% packet loss".data ++ s))))))
      = findFirst packetLossRegexp s := by
  rw [findFirst_append_skip packetLossRegexp x _ (fun p1 p2 e _ =>
    (matchAt_eq_none_iff _ _).2
      (packet_no_start_short_loss p2 y p s (allDigits_of_suffix p1 p2 x e hx) hy hp))]
  rw [findFirst_skip_nondigits packetLossRegexp packet_starts_with_digit _ _ (by decide)]
  rw [packet_skip_digits y _ hy (by
    rintro ⟨w, hw⟩
    simp [List.dropWhile_cons] at hw)]
  rw [findFirst_skip_nondigits packetLossRegexp packet_starts_with_digit _ _ (by decide)]
  rw [findFirst_append_skip packetLossRegexp p _ (fun p1 p2 e _ =>
    (matchAt_eq_none_iff _ _).2
      (packet_no_start_in_short_loss p2 s (by
        have := congrArg List.length e
        simp only [List.length_append] at this
        omega)))]
  rw [findFirst_skip_nondigits packetLossRegexp packet_starts_with_digit _ _ (by decide)]

/-! ## Texts of the expected shape -/

theorem timing_none_iff (s : String) :
    timingStatsFromPing s = none ↔ findFirst statsRegexp s.data = none := by
  rw [timingStatsFromPing_eq]
  simp

theorem packet_none_iff (s : String) :
    packetStatsFromPing s = none ↔ findFirst packetLossRegexp s.data = none := by
  rw [packetStatsFromPing_eq]
  simp

theorem isDecimal_data (z : String) (hz : isDecimal z) :
    ∃ z1 z2 : List Char, z.data = z1 ++ '.' :: z2 ∧ (z1 ≠ [] ∧ allDigits z1) ∧
      (z2 ≠ [] ∧ allDigits z2) := by
  obtain ⟨i, f, hi, hf, rfl⟩ := hz
  exact ⟨i.data, f.data, by simp [String.data_append], hi, hf⟩

theorem numberText_of_decimal (z1 z2 : List Char) (h1 : z1 ≠ [] ∧ allDigits z1)
    (h2 : z2 ≠ [] ∧ allDigits z2) : NumberText (z1 ++ '.' :: z2) :=
  ⟨z1, '.', z2, rfl, h1, by decide, by decide, h2⟩

/-- Earlier output made of whole lines in which the pattern does not occur
is skipped by the search. -/
theorem findFirst_skip_pre (re : Regexp) (hnl : noNL re.prog = true) (pre : String)
    (hpre : pre = "" ∨ ∃ q : String, pre = q ++ "\n") (hnone : findFirst re pre.data = none)
    (s : List Char) : findFirst re (pre.data ++ s) = findFirst re s := by
  rcases hpre with rfl | ⟨q, rfl⟩
  · rfl
  · have e : (q ++ "\n").data = q.data ++ ['\n'] := by simp [String.data_append]
    rw [e] at hnone ⊢
    rw [List.append_assoc, List.singleton_append]
    exact findFirst_skip_line re hnl q.data s hnone

theorem summaryText_data (pre x y z a b c d post : String) :
    (summaryText pre x y z a b c d post).data = pre.data ++ (x.data ++
      (" packets transmitted, ".data ++ (y.data ++ (" packets received, ".data ++ (z.data ++
        ("% packet loss".data ++ ('\n' :: ("round-trip min/avg/max/stddev = ".data ++
          (a.data ++ '/' :: (b.data ++ '/' :: (c.data ++ '/' :: (d.data ++
            (" ms".data ++ post.data))))))))))))) := by
  simp [summaryText, packetLine, timingLine, String.data_append]

/-- The leftmost timing match in a summary block is the timing line's
quadruple. -/
theorem stats_find_summary (x y z1 z2 g1 g2 g3 g4 s : List Char) (hx : allDigits x)
    (hy : allDigits y) (hz1 : allDigits z1) (hz2 : allDigits z2) (h1 : NumberText g1)
    (h2 : NumberText g2) (h3 : NumberText g3) (h4 : NumberText g4) :
    findFirst statsRegexp (x ++ (" packets transmitted, ".data ++ (y ++
      (" packets received, ".data ++ (z1 ++ '.' :: (z2 ++ ("% packet loss".data ++
        ('\n' :: ("round-trip min/avg/max/stddev = ".data ++
          (g1 ++ '/' :: (g2 ++ '/' :: (g3 ++ '/' :: (g4 ++ (" ms".data ++ s))))))))))))))
      = some ([g1 ++ '/' :: (g2 ++ '/' :: (g3 ++ '/' :: g4)), g1, g2, g3, g4],
          " ms".data ++ s) := by
  rw [stats_skip_packet_line x y z1 z2 _ hx hy hz1 hz2]
  rw [stats_skip_char _ _ (by decide)]
  rw [findFirst_skip_nondigits statsRegexp stats_starts_with_digit _ _ (by decide)]
  exact findFirst_of_matchAt _ _ _
    (matchAt_stats g1 g2 g3 g4 _ h1 h2 h3 h4 (headNotDigit_cons ' ' _ (by decide)))

/-! ## Claims -/

/-- C1 (round trip of extraction).  For every summary text made of earlier
output `pre` (empty, or whole lines, in which neither pattern occurs), a
packet line `X packets transmitted, Y packets received, Z% packet loss` and,
on the next line, a timing line `round-trip min/avg/max/stddev = A/B/C/D ms`
(followed by any text), where X and Y are digit strings and Z, A, B, C, D are
decimal numbers: timingStatsFromPing returns exactly [A, B, C, D] and
packetStatsFromPing returns exactly [X, Y, Z], the same character sequences
as in the text. -/
theorem extraction_round_trip (pre post x y z a b c d : String)
    (hpre : pre = "" ∨ ∃ q : String, pre = q ++ "\n")
    (hpreT : timingStatsFromPing pre = none) (hpreP : packetStatsFromPing pre = none)
    (hx : isDigits x) (hy : isDigits y) (hz : isDecimal z)
    (ha : isDecimal a) (hb : isDecimal b) (hc : isDecimal c) (hd : isDecimal d) :
    timingStatsFromPing (summaryText pre x y z a b c d post) = some [a, b, c, d] ∧
      packetStatsFromPing (summaryText pre x y z a b c d post) = some [x, y, z] := by
  obtain ⟨z1, z2, ez, hz1, hz2⟩ := isDecimal_data z hz
  obtain ⟨a1, a2, ea, ha1, ha2⟩ := isDecimal_data a ha
  obtain ⟨b1, b2, eb, hb1, hb2⟩ := isDecimal_data b hb
  obtain ⟨c1, c2, ec, hc1, hc2⟩ := isDecimal_data c hc
  obtain ⟨d1, d2, ed, hd1, hd2⟩ := isDecimal_data d hd
  constructor
  · rw [timingStatsFromPing_eq, summaryText_data,
      findFirst_skip_pre statsRegexp (by decide) pre hpre ((timing_none_iff pre).1 hpreT), ez,
      List.append_assoc z1 ('.' :: z2), List.cons_append '.' z2,
      stats_find_summary x.data y.data z1 z2 a.data b.data c.data d.data post.data hx.2 hy.2
        hz1.2 hz2.2 (ea ▸ numberText_of_decimal a1 a2 ha1 ha2)
        (eb ▸ numberText_of_decimal b1 b2 hb1 hb2) (ec ▸ numberText_of_decimal c1 c2 hc1 hc2)
        (ed ▸ numberText_of_decimal d1 d2 hd1 hd2)]
    rfl
  · rw [packetStatsFromPing_eq, summaryText_data,
      findFirst_skip_pre packetLossRegexp (by decide) pre hpre ((packet_none_iff pre).1 hpreP),
      findFirst_of_matchAt _ _ _ (matchAt_packet x.data y.data z.data _ hx hy
        (ez ▸ numberText_of_decimal z1 z2 hz1 hz2))]
    rfl

set_option maxRecDepth 100000 in
/-- Witness of C1: the example text of the specification. -/
theorem extraction_round_trip_witness :
    timingStatsFromPing
        "--- example.com ping statistics ---\n5 packets transmitted, 5 packets received, 0.0% packet loss\nround-trip min/avg/max/stddev = 110.555/112.243/113.908/1.307 ms"
        = some ["110.555", "112.243", "113.908", "1.307"] ∧
      packetStatsFromPing
        "--- example.com ping statistics ---\n5 packets transmitted, 5 packets received, 0.0% packet loss\nround-trip min/avg/max/stddev = 110.555/112.243/113.908/1.307 ms"
        = some ["5", "5", "0.0"] :=
  extraction_round_trip "--- example.com ping statistics ---\n" "" "5" "5" "0.0" "110.555"
    "112.243" "113.908" "1.307" (Or.inr ⟨"--- example.com ping statistics ---", by decide⟩)
    (by decide) (by decide) (by decide) (by decide)
    ⟨"0", "0", by decide, by decide, by decide⟩
    ⟨"110", "555", by decide, by decide, by decide⟩
    ⟨"112", "243", by decide, by decide, by decide⟩
    ⟨"113", "908", by decide, by decide, by decide⟩
    ⟨"1", "307", by decide, by decide, by decide⟩

set_option maxRecDepth 100000 in
theorem example_stats :
    (PingExec "example.com" 5 exampleEnv).stats =
      { RoundTripMin := "110.555", RoundTripAvg := "112.243", RoundTripMax := "113.908",
        RoundTripStdDev := "1.307", PacketsSent := "5", PacketsReceived := "5",
        PacketLoss := "0.0" } := by
  decide

/-- C4 (AsMap projection).  For every statistics value `p`, the keys of
`p.AsMap()` are exactly the seven keys roundTripMin, roundTripAvg,
roundTripMax, roundTripStdDev, packetsSent, packetsReceived, packetLoss, each
once; each key maps to the corresponding field of `p`, every other key is
absent; and for the statistics assembled from the example text the key
roundTripAvg maps to 112.243. -/
theorem asMap_projection (p : PingStatistics) :
    p.AsMap.map Prod.fst = ["roundTripMin", "roundTripAvg", "roundTripMax", "roundTripStdDev",
        "packetsSent", "packetsReceived", "packetLoss"] ∧
      (p.AsMap.map Prod.fst).Nodup ∧
      mapIndex p.AsMap "roundTripMin" = some p.RoundTripMin ∧
      mapIndex p.AsMap "roundTripAvg" = some p.RoundTripAvg ∧
      mapIndex p.AsMap "roundTripMax" = some p.RoundTripMax ∧
      mapIndex p.AsMap "roundTripStdDev" = some p.RoundTripStdDev ∧
      mapIndex p.AsMap "packetsSent" = some p.PacketsSent ∧
      mapIndex p.AsMap "packetsReceived" = some p.PacketsReceived ∧
      mapIndex p.AsMap "packetLoss" = some p.PacketLoss ∧
      (∀ k, k ∉ ["roundTripMin", "roundTripAvg", "roundTripMax", "roundTripStdDev",
        "packetsSent", "packetsReceived", "packetLoss"] → mapIndex p.AsMap k = none) ∧
      mapIndex (PingExec "example.com" 5 exampleEnv).stats.AsMap "roundTripAvg"
        = some "112.243" := by
  refine ⟨rfl, ?_, rfl, rfl, rfl, rfl, rfl, rfl, rfl, ?_, ?_⟩
  · show ["roundTripMin", "roundTripAvg", "roundTripMax", "roundTripStdDev", "packetsSent",
      "packetsReceived", "packetLoss"].Nodup
    decide
  · intro k hk
    simp only [List.mem_cons, List.mem_singleton, List.not_mem_nil, or_false, not_or] at hk
    obtain ⟨h1, h2, h3, h4, h5, h6, h7⟩ := hk
    have b1 : (k == "roundTripMin") = false := beq_eq_false_iff_ne.2 h1
    have b2 : (k == "roundTripAvg") = false := beq_eq_false_iff_ne.2 h2
    have b3 : (k == "roundTripMax") = false := beq_eq_false_iff_ne.2 h3
    have b4 : (k == "roundTripStdDev") = false := beq_eq_false_iff_ne.2 h4
    have b5 : (k == "packetsSent") = false := beq_eq_false_iff_ne.2 h5
    have b6 : (k == "packetsReceived") = false := beq_eq_false_iff_ne.2 h6
    have b7 : (k == "packetLoss") = false := beq_eq_false_iff_ne.2 h7
    simp only [mapIndex, PingStatistics.AsMap, List.lookup, b1, b2, b3, b4, b5, b6, b7]
  · rw [example_stats]
    rfl

/-- C6 (no lingering process), evaluated on the code: when the interrupt
signal fails, or when the read fails, PingExec returns after the process was
started and without having called `cmd.Wait` -- while every return after a
successful signal and read comes after `cmd.Wait`. -/
theorem wait_skipped_on_signal_or_read_failure :
    (PingExec "example.com" 1 signalFailsEnv).trace =
        [.command "ping" "example.com", .stdoutPipe, .start, .sleep 1000000000,
          .signalInterrupt] ∧
      Event.start ∈ (PingExec "example.com" 1 signalFailsEnv).trace ∧
      Event.wait ∉ (PingExec "example.com" 1 signalFailsEnv).trace ∧
      (PingExec "example.com" 1 readFailsEnv).trace =
        [.command "ping" "example.com", .stdoutPipe, .start, .sleep 1000000000,
          .signalInterrupt, .sleep 1000000000, .read 8192] ∧
      Event.start ∈ (PingExec "example.com" 1 readFailsEnv).trace ∧
      Event.wait ∉ (PingExec "example.com" 1 readFailsEnv).trace ∧
      (∀ host d env, env.pipeErr = none → env.startErr = none → env.signalErr = none →
        env.readErr = none → Event.wait ∈ (PingExec host d env).trace) := by
  refine ⟨by decide, by decide, by decide, by decide, by decide, by decide, ?_⟩
  intro host d env h1 h2 h3 h4
  simp only [PingExec, h1, h2, h3, h4]
  cases env.waitErr with
  | some e => simp
  | none =>
    simp only
    split <;> simp

/-- C7, counterexample: for `durationSeconds = 9223372037` the 64-bit product
wraps around to a negative number of nanoseconds. -/
theorem pingWait_overflow :
    pingWait 9223372037 = -9223372036709551616 ∧
      pingWait 9223372037 ≠ 9223372037 * 1000000000 ∧
      (0 : Int) ≤ 9223372037 ∧ (9223372037 : Int) < 2 ^ 63 := by
  decide

/-- C7, amended (exact probe duration).  For every `durationSeconds` from 0
to 9223372036, the duration `time.Second * time.Duration(pingDuration)`
computed in 64-bit signed nanoseconds is exactly `durationSeconds * 10^9`,
and it is the duration PingExec sleeps before it sends the interrupt. -/
theorem pingWait_exact (d : Int) (h0 : 0 ≤ d) (h1 : d ≤ 9223372036) :
    pingWait d = d * 1000000000 ∧
      ∀ host env, env.pipeErr = none → env.startErr = none →
        (PingExec host d env).trace.take 5 =
          [.command "ping" host, .stdoutPipe, .start, .sleep (d * 1000000000),
            .signalInterrupt] := by
  have key : pingWait d = d * 1000000000 := by
    unfold pingWait wrapInt64 timeSecond
    norm_num
    omega
  refine ⟨key, ?_⟩
  intro host env h1 h2
  simp only [PingExec, h1, h2, key]
  cases env.signalErr with
  | some e => simp
  | none =>
    cases env.readErr with
    | some e => simp
    | none =>
      cases env.waitErr with
      | some e => simp
      | none =>
        simp only
        split <;> simp

/-- Witness of C7 (amended): five seconds. -/
theorem pingWait_exact_witness :
    pingWait 5 = 5 * 1000000000 ∧
      ∀ host env, env.pipeErr = none → env.startErr = none →
        (PingExec host 5 env).trace.take 5 =
          [.command "ping" host, .stdoutPipe, .start, .sleep (5 * 1000000000),
            .signalInterrupt] :=
  pingWait_exact 5 (by decide) (by decide)

theorem isDecimal_has_point (s : String) (h : isDecimal s) : '.' ∈ s.data := by
  obtain ⟨i, f, _, _, rfl⟩ := h
  simp [String.data_append]

/-- C8 (timing extraction returns decimal numbers), evaluated on the code:
on the text `round-trip min/avg/max/stddev = 110/112/113/100 ms` the timing
extraction reports a match and returns 110, 112, 113, 100, none of which is a
decimal number (there is no `.` in them); on `1a2/3b4/5c6/7d8` it returns
1a2, 3b4, 5c6, 7d8. -/
theorem timing_accepts_non_decimal :
    timingStatsFromPing "round-trip min/avg/max/stddev = 110/112/113/100 ms"
        = some ["110", "112", "113", "100"] ∧
      ¬ isDecimal "110" ∧ ¬ isDecimal "112" ∧ ¬ isDecimal "113" ∧ ¬ isDecimal "100" ∧
      timingStatsFromPing "1a2/3b4/5c6/7d8" = some ["1a2", "3b4", "5c6", "7d8"] ∧
      ¬ isDecimal "1a2" := by
  refine ⟨by decide, ?_, ?_, ?_, ?_, by decide, ?_⟩ <;>
    exact fun h => absurd (isDecimal_has_point _ h) (by decide)

theorem PingExec_of_steps (host : String) (d : Int) (env : ProcEnv) (h : stepsSucceed env) :
    ((PingExec host d env).stats, (PingExec host d env).err) =
      match timingStatsFromPing env.readData, packetStatsFromPing env.readData with
      | some t, some p =>
        ({ RoundTripMin := t.getD 0 "", RoundTripAvg := t.getD 1 "",
           RoundTripMax := t.getD 2 "", RoundTripStdDev := t.getD 3 "",
           PacketsSent := p.getD 0 "", PacketsReceived := p.getD 1 "",
           PacketLoss := p.getD 2 "" }, none)
      | _, _ => (emptyPing, some parseError) := by
  obtain ⟨h1, h2, h3, h4, h5⟩ := h
  simp only [PingExec, h1, h2, h3, h4, h5]
  split <;> simp_all

theorem timing_none_packetLine (x y z : String) (hx : isDigits x) (hy : isDigits y)
    (hz : isDecimal z) : timingStatsFromPing (packetLine x y z) = none := by
  obtain ⟨z1, z2, ez, hz1, hz2⟩ := isDecimal_data z hz
  rw [timing_none_iff]
  have e : (packetLine x y z).data = x.data ++ (" packets transmitted, ".data ++ (y.data ++
      (" packets received, ".data ++ (z1 ++ '.' :: (z2 ++ ("% packet loss".data ++ [])))))) := by
    simp [packetLine, String.data_append, ez]
  rw [e, stats_skip_packet_line x.data y.data z1 z2 [] hx.2 hy.2 hz1.2 hz2.2]
  exact matchAt_nil_stats

theorem packet_none_timingLine (a b c d : String) (ha : isDecimal a) (hb : isDecimal b)
    (hc : isDecimal c) (hd : isDecimal d) : packetStatsFromPing (timingLine a b c d) = none := by
  obtain ⟨a1, a2, ea, ha1, ha2⟩ := isDecimal_data a ha
  obtain ⟨b1, b2, eb, hb1, hb2⟩ := isDecimal_data b hb
  obtain ⟨c1, c2, ec, hc1, hc2⟩ := isDecimal_data c hc
  obtain ⟨d1, d2, ed, hd1, hd2⟩ := isDecimal_data d hd
  rw [packet_none_iff]
  have e : (timingLine a b c d).data = "round-trip min/avg/max/stddev = ".data ++
      (a1 ++ '.' :: (a2 ++ '/' :: (b1 ++ '.' :: (b2 ++ '/' :: (c1 ++ '.' :: (c2 ++ '/' ::
        (d1 ++ '.' :: (d2 ++ (" ms".data ++ []))))))))) := by
    simp [timingLine, String.data_append, ea, eb, ec, ed]
  rw [e, packet_skip_timing_line a1 a2 b1 b2 c1 c2 d1 d2 [] ha1.2 ha2.2 hb1.2 hb2.2 hc1.2 hc2.2
    hd1.2 hd2.2]
  exact matchAt_nil_packet

theorem packet_some_packetLine (x y z : String) (hx : isDigits x) (hy : isDigits y)
    (hz : isDecimal z) : packetStatsFromPing (packetLine x y z) = some [x, y, z] := by
  obtain ⟨z1, z2, ez, hz1, hz2⟩ := isDecimal_data z hz
  have e : (packetLine x y z).data = x.data ++ (" packets transmitted, ".data ++ (y.data ++
      (" packets received, ".data ++ (z.data ++ ("% packet loss".data ++ []))))) := by
    simp [packetLine, String.data_append]
  rw [packetStatsFromPing_eq, e, findFirst_of_matchAt _ _ _ (matchAt_packet x.data y.data z.data
    [] hx hy (ez ▸ numberText_of_decimal z1 z2 hz1 hz2))]
  rfl

theorem timing_some_timingLine (a b c d : String) (ha : isDecimal a) (hb : isDecimal b)
    (hc : isDecimal c) (hd : isDecimal d) :
    timingStatsFromPing (timingLine a b c d) = some [a, b, c, d] := by
  obtain ⟨a1, a2, ea, ha1, ha2⟩ := isDecimal_data a ha
  obtain ⟨b1, b2, eb, hb1, hb2⟩ := isDecimal_data b hb
  obtain ⟨c1, c2, ec, hc1, hc2⟩ := isDecimal_data c hc
  obtain ⟨d1, d2, ed, hd1, hd2⟩ := isDecimal_data d hd
  have e : (timingLine a b c d).data = "round-trip min/avg/max/stddev = ".data ++
      (a.data ++ '/' :: (b.data ++ '/' :: (c.data ++ '/' :: (d.data ++ " ms".data)))) := by
    simp [timingLine, String.data_append]
  rw [timingStatsFromPing_eq, e,
    findFirst_skip_nondigits statsRegexp stats_starts_with_digit _ _ (by decide),
    findFirst_of_matchAt _ _ _ (matchAt_stats a.data b.data c.data d.data _
      (ea ▸ numberText_of_decimal a1 a2 ha1 ha2) (eb ▸ numberText_of_decimal b1 b2 hb1 hb2)
      (ec ▸ numberText_of_decimal c1 c2 hc1 hc2) (ed ▸ numberText_of_decimal d1 d2 hd1 hd2)
      (headNotDigit_cons ' ' _ (by decide)))]
  rfl

/-- C2 (parse failure).  When every process step succeeds, PingExec returns
the parse error together with the empty statistics exactly when
timingStatsFromPing or packetStatsFromPing reports no match on the captured
text; in particular it does so on a well-formed packet line without timing
line (although the packet extraction matches) and on a well-formed timing line
without packet line (although the timing extraction matches). -/
theorem parse_failure_iff (host : String) (d : Int) (env : ProcEnv) (h : stepsSucceed env) :
    (((PingExec host d env).err = some parseError ∧ (PingExec host d env).stats = emptyPing) ↔
        (timingStatsFromPing env.readData = none ∨ packetStatsFromPing env.readData = none)) ∧
      (∀ x y z, isDigits x → isDigits y → isDecimal z → env.readData = packetLine x y z →
        packetStatsFromPing env.readData = some [x, y, z] ∧
        (PingExec host d env).err = some parseError ∧ (PingExec host d env).stats = emptyPing) ∧
      (∀ a b c e, isDecimal a → isDecimal b → isDecimal c → isDecimal e →
        env.readData = timingLine a b c e →
        timingStatsFromPing env.readData = some [a, b, c, e] ∧
        (PingExec host d env).err = some parseError ∧ (PingExec host d env).stats = emptyPing) := by
  have key := PingExec_of_steps host d env h
  have tnone : timingStatsFromPing env.readData = none →
      (PingExec host d env).err = some parseError ∧ (PingExec host d env).stats = emptyPing := by
    intro ht
    rw [ht] at key
    simp only [Prod.mk.injEq] at key
    exact ⟨key.2, key.1⟩
  have pnone : packetStatsFromPing env.readData = none →
      (PingExec host d env).err = some parseError ∧ (PingExec host d env).stats = emptyPing := by
    intro hp
    rw [hp] at key
    cases ht : timingStatsFromPing env.readData <;> rw [ht] at key <;>
      simp only [Prod.mk.injEq] at key <;> exact ⟨key.2, key.1⟩
  refine ⟨⟨?_, fun hor => hor.elim tnone pnone⟩, ?_, ?_⟩
  · rintro ⟨he, _⟩
    cases ht : timingStatsFromPing env.readData with
    | none => exact Or.inl rfl
    | some t =>
      cases hp : packetStatsFromPing env.readData with
      | none => exact Or.inr rfl
      | some p =>
        rw [ht, hp] at key
        simp only [Prod.mk.injEq] at key
        rw [he] at key
        exact absurd key.2 (by simp)
  · intro x y z hx hy hz e
    rw [e]
    exact ⟨packet_some_packetLine x y z hx hy hz,
      tnone (by rw [e]; exact timing_none_packetLine x y z hx hy hz)⟩
  · intro a b c e1 ha hb hc he e
    rw [e]
    exact ⟨timing_some_timingLine a b c e1 ha hb hc he,
      pnone (by rw [e]; exact packet_none_timingLine a b c e1 ha hb hc he)⟩

/-- Witness of C2: a packet line without timing line. -/
theorem parse_failure_iff_witness :
    (PingExec "example.com" 5 packetOnlyEnv).err = some parseError ∧
      (PingExec "example.com" 5 packetOnlyEnv).stats = emptyPing ∧
      packetStatsFromPing packetOnlyEnv.readData = some ["5", "5", "0.0"] :=
  have h := parse_failure_iff "example.com" 5 packetOnlyEnv ⟨rfl, rfl, rfl, rfl, rfl⟩
  have h2 := h.2.1 "5" "5" "0.0" (by decide) (by decide) ⟨"0", "0", by decide, by decide, by decide⟩
    (by decide)
  ⟨h2.2.1, h2.2.2, h2.1⟩

theorem mk_ne_empty (g : List Char) (h : g ≠ []) : String.mk g ≠ "" := by
  intro e
  exact h (congrArg String.data e)

theorem timing_some_shape (str : String) (r : List String)
    (h : timingStatsFromPing str = some r) :
    ∃ t1 t2 t3 t4, r = [t1, t2, t3, t4] ∧ t1 ≠ "" ∧ t2 ≠ "" ∧ t3 ≠ "" ∧ t4 ≠ "" := by
  obtain ⟨pre, g1, g2, g3, g4, post, _, l1, l2, l3, l4, hr, _⟩ := timing_some_spec str r h
  exact ⟨_, _, _, _, hr, mk_ne_empty g1 (Lang_ne_nil _ g1 l1), mk_ne_empty g2 (Lang_ne_nil _ g2 l2),
    mk_ne_empty g3 (Lang_ne_nil _ g3 l3), mk_ne_empty g4 (Lang_ne_nil _ g4 l4)⟩

theorem packet_some_shape (str : String) (r : List String)
    (h : packetStatsFromPing str = some r) :
    ∃ p1 p2 p3, r = [p1, p2, p3] ∧ p1 ≠ "" ∧ p2 ≠ "" ∧ p3 ≠ "" := by
  obtain ⟨pre, g1, g2, g3, post, _, l1, l2, l3, hr, _⟩ := packet_some_spec str r h
  exact ⟨_, _, _, hr, mk_ne_empty g1 (Lang_ne_nil _ g1 l1), mk_ne_empty g2 (Lang_ne_nil _ g2 l2),
    mk_ne_empty g3 (Lang_ne_nil _ g3 l3)⟩

/-- C5 (no-match signal).  For every text, timingStatsFromPing returns the
no-match value exactly when the timing pattern does not occur in the text, and
otherwise a list of exactly four non-empty strings; packetStatsFromPing
returns the no-match value exactly when the packet pattern does not occur, and
otherwise a list of exactly three non-empty strings. -/
theorem no_match_signal (str : String) :
    (timingStatsFromPing str = none ↔ ¬ Occurs statsRegexp.prog str.data) ∧
      (∀ r, timingStatsFromPing str = some r → r.length = 4 ∧ ∀ s ∈ r, s ≠ "") ∧
      (packetStatsFromPing str = none ↔ ¬ Occurs packetLossRegexp.prog str.data) ∧
      (∀ r, packetStatsFromPing str = some r → r.length = 3 ∧ ∀ s ∈ r, s ≠ "") := by
  refine ⟨?_, ?_, ?_, ?_⟩
  · rw [timing_none_iff, findFirst_eq_none_iff]
  · intro r h
    obtain ⟨t1, t2, t3, t4, rfl, h1, h2, h3, h4⟩ := timing_some_shape str r h
    refine ⟨rfl, ?_⟩
    intro s hs
    simp only [List.mem_cons, List.mem_singleton, List.not_mem_nil, or_false] at hs
    rcases hs with rfl | rfl | rfl | rfl <;> assumption
  · rw [packet_none_iff, findFirst_eq_none_iff]
  · intro r h
    obtain ⟨p1, p2, p3, rfl, h1, h2, h3⟩ := packet_some_shape str r h
    refine ⟨rfl, ?_⟩
    intro s hs
    simp only [List.mem_cons, List.mem_singleton, List.not_mem_nil, or_false] at hs
    rcases hs with rfl | rfl | rfl <;> assumption

/-- C3 (all-or-nothing result).  For every outcome of the process steps and
every captured text, PingExec returns either a nil error with seven non-empty
fields equal, in order, to the four timing substrings and the three packet
substrings extracted from that text, or a non-nil error with the empty
statistics value, whose seven fields are all the empty string. -/
theorem all_or_nothing (host : String) (d : Int) (env : ProcEnv) :
    ((PingExec host d env).err = none ∧
        ∃ t1 t2 t3 t4 p1 p2 p3,
          timingStatsFromPing env.readData = some [t1, t2, t3, t4] ∧
          packetStatsFromPing env.readData = some [p1, p2, p3] ∧
          (PingExec host d env).stats =
            { RoundTripMin := t1, RoundTripAvg := t2, RoundTripMax := t3, RoundTripStdDev := t4,
              PacketsSent := p1, PacketsReceived := p2, PacketLoss := p3 } ∧
          t1 ≠ "" ∧ t2 ≠ "" ∧ t3 ≠ "" ∧ t4 ≠ "" ∧ p1 ≠ "" ∧ p2 ≠ "" ∧ p3 ≠ "") ∨
      ((PingExec host d env).err ≠ none ∧
        (PingExec host d env).stats =
          { RoundTripMin := "", RoundTripAvg := "", RoundTripMax := "", RoundTripStdDev := "",
            PacketsSent := "", PacketsReceived := "", PacketLoss := "" }) := by
  cases h1 : env.pipeErr with
  | some e => right; simp [PingExec, h1, emptyPing]
  | none =>
  cases h2 : env.startErr with
  | some e => right; simp [PingExec, h1, h2, emptyPing]
  | none =>
  cases h3 : env.signalErr with
  | some e => right; simp [PingExec, h1, h2, h3, emptyPing]
  | none =>
  cases h4 : env.readErr with
  | some e => right; simp [PingExec, h1, h2, h3, h4, emptyPing]
  | none =>
  cases h5 : env.waitErr with
  | some e => right; simp [PingExec, h1, h2, h3, h4, h5, emptyPing]
  | none =>
  have key := PingExec_of_steps host d env ⟨h1, h2, h3, h4, h5⟩
  cases ht : timingStatsFromPing env.readData with
  | none =>
    rw [ht] at key
    simp only [Prod.mk.injEq] at key
    right
    exact ⟨by rw [key.2]; simp, key.1⟩
  | some t =>
    cases hp : packetStatsFromPing env.readData with
    | none =>
      rw [ht, hp] at key
      simp only [Prod.mk.injEq] at key
      right
      exact ⟨by rw [key.2]; simp, key.1⟩
    | some p =>
      rw [ht, hp] at key
      simp only [Prod.mk.injEq] at key
      obtain ⟨t1, t2, t3, t4, rfl, n1, n2, n3, n4⟩ := timing_some_shape _ t ht
      obtain ⟨p1, p2, p3, rfl, m1, m2, m3⟩ := packet_some_shape _ p hp
      left
      exact ⟨key.2, t1, t2, t3, t4, p1, p2, p3, rfl, rfl, key.1, n1, n2, n3, n4, m1, m2, m3⟩

theorem leftmost_of_no_start (r : Regex) (pre suf pre1 m1 post1 : List Char)
    (hleft : ∀ p1 p2, pre = p1 ++ p2 → p2 ≠ [] → ¬ StartsMatch r (p2 ++ suf))
    (e : pre ++ suf = pre1 ++ m1 ++ post1) (hm : Lang r m1) : pre.length ≤ pre1.length := by
  rw [List.append_assoc] at e
  rcases List.append_eq_append_iff.1 e with ⟨a, ha, _⟩ | ⟨c, hc, hc2⟩
  · rw [ha]; simp
  · by_cases hnil : c = []
    · rw [hc, hnil]; simp
    · exact absurd ⟨m1, post1, hc2.symm, hm⟩ (hleft pre1 c hc hnil)

theorem lang_stats_of_parts (g1 g2 g3 g4 : List Char) (l1 : Lang numberShape g1)
    (l2 : Lang numberShape g2) (l3 : Lang numberShape g3) (l4 : Lang numberShape g4) :
    Lang statsRegexp.prog (g1 ++ '/' :: (g2 ++ '/' :: (g3 ++ '/' :: g4))) :=
  ⟨g1, _, rfl, l1, ['/'], _, rfl, rfl, g2, _, rfl, l2, ['/'], _, rfl, rfl, g3, _, rfl, l3,
    ['/'], _, rfl, rfl, l4⟩

theorem lang_packet_of_parts (g1 g2 g3 : List Char) (l1 : Lang (.plus .digit) g1)
    (l2 : Lang (.plus .digit) g2) (l3 : Lang numberShape g3) :
    Lang packetLossRegexp.prog (g1 ++ (" packets transmitted, ".data ++ (g2 ++
      (" packets received, ".data ++ (g3 ++ "% packet loss".data))))) :=
  ⟨g1, _, rfl, l1, " packets transmitted, ".data, _, rfl, rfl, g2, _, rfl, l2,
    " packets received, ".data, _, rfl, rfl, g3, _, rfl, l3, rfl⟩

/-- C9, counterexample: the result depends on the text after the end of the
returned occurrence.  On `1.1/2.2/3.3/4.4 x 5.5/6.6/7.7/8.8` the leftmost match
is `1.1/2.2/3.3/4.4`, it ends before ` x 5.5/6.6/7.7/8.8`, and the result is
[1.1, 2.2, 3.3, 4.4]; with the text after that occurrence replaced by
`5 x 5.5/6.6/7.7/8.8` the result is [1.1, 2.2, 3.3, 4.45].  Likewise on
`1234/1234/1234/1234` followed by nothing and followed by `/5.5/6.6`. -/
theorem timing_depends_on_following_text :
    findFirst statsRegexp ("1.1/2.2/3.3/4.4".data ++ " x 5.5/6.6/7.7/8.8".data)
        = some (["1.1/2.2/3.3/4.4".data, "1.1".data, "2.2".data, "3.3".data, "4.4".data],
            " x 5.5/6.6/7.7/8.8".data) ∧
      timingStatsFromPing ("1.1/2.2/3.3/4.4" ++ " x 5.5/6.6/7.7/8.8")
        = some ["1.1", "2.2", "3.3", "4.4"] ∧
      timingStatsFromPing ("1.1/2.2/3.3/4.4" ++ "5 x 5.5/6.6/7.7/8.8")
        = some ["1.1", "2.2", "3.3", "4.45"] ∧
      findFirst statsRegexp ("1234/1234/1234/1234".data ++ [])
        = some (["1234/1234/1234/1234".data, "1234".data, "1234".data, "1234".data,
            "1234".data], []) ∧
      timingStatsFromPing ("1234/1234/1234/1234" ++ "")
        = some ["1234", "1234", "1234", "1234"] ∧
      timingStatsFromPing ("1234/1234/1234/1234" ++ "/5.5/6.6")
        = some ["1234/1234", "1234/1234", "5.5", "6.6"] := by
  decide

/-- No timing match starts inside a loss percentage of fewer than three
characters. -/
theorem stats_no_start_in_short_loss (q s : List Char) (hq : q.length < 3) :
    ¬ StartsMatch statsRegexp.prog (q ++ ("% packet loss".data ++ s)) := by
  intro h
  obtain ⟨d, x, e, w, e1, hd, he⟩ := startsMatch_stats_nec _ h
  exact short_loss_absurd q d e _ _ x hq hd he e1

/-- The timing pattern does not occur in a packet line whose loss percentage
has fewer than three characters. -/
theorem stats_skip_short_loss (x y p s : List Char) (hx : allDigits x) (hy : allDigits y)
    (hp : p.length < 3) :
    findFirst statsRegexp (x ++ (" packets transmitted, ".data ++ (y ++
      (" packets received, ".data ++ (p ++ ("% packet loss".data ++ s))))))
      = findFirst statsRegexp s := by
  rw [show x ++ (" packets transmitted, ".data ++ (y ++ (" packets received, ".data ++
      (p ++ ("% packet loss".data ++ s))))) = x ++ ' ' :: 'p' :: ("ackets transmitted, ".data ++
      (y ++ (" packets received, ".data ++ (p ++ ("% packet loss".data ++ s))))) from rfl,
    stats_skip_digits0 x _ ' ' 'p' hx (by decide) (by decide) (by decide) (by decide),
    stats_skip_char _ _ (by decide), stats_skip_char _ _ (by decide),
    findFirst_skip_nondigits statsRegexp stats_starts_with_digit _ _ (by decide),
    show y ++ (" packets received, ".data ++ (p ++ ("% packet loss".data ++ s)))
      = y ++ ' ' :: 'p' :: ("ackets received, ".data ++ (p ++ ("% packet loss".data ++ s)))
      from rfl,
    stats_skip_digits0 y _ ' ' 'p' hy (by decide) (by decide) (by decide) (by decide),
    stats_skip_char _ _ (by decide), stats_skip_char _ _ (by decide),
    findFirst_skip_nondigits statsRegexp stats_starts_with_digit _ _ (by decide),
    findFirst_append_skip statsRegexp p _ (fun p1 p2 e _ =>
      (matchAt_eq_none_iff _ _).2
        (stats_no_start_in_short_loss p2 s (by
          have := congrArg List.length e
          simp only [List.length_append] at this
          omega))),
    findFirst_skip_nondigits statsRegexp stats_starts_with_digit _ _ (by decide)]

/-- C10 (short loss percentages are rejected).  For all digit strings X, Y
and every loss percentage P of fewer than three characters,
packetStatsFromPing returns no match on
`X packets transmitted, Y packets received, P% packet loss`; when a valid
timing line follows on the next line, the timing extraction succeeds and
PingExec (all process steps succeeding) still fails with the parse error and
the empty statistics.  On a match, the two returned counts are non-empty and
consist of decimal digits only, and the returned loss percentage has at least
three characters, the first and the last of which are digits. -/
theorem short_loss_rejected :
    (∀ x y p : String, allDigits x.data → allDigits y.data → p.length < 3 →
        packetStatsFromPing (packetLine x y p) = none) ∧
      (∀ host d env, ∀ x y p a b c e : String, stepsSucceed env → allDigits x.data →
        allDigits y.data → p.length < 3 → isDecimal a → isDecimal b → isDecimal c →
        isDecimal e → env.readData = packetLine x y p ++ "\n" ++ timingLine a b c e →
        timingStatsFromPing env.readData = some [a, b, c, e] ∧
        packetStatsFromPing env.readData = none ∧
        (PingExec host d env).err = some parseError ∧
        (PingExec host d env).stats = emptyPing) ∧
      (∀ str r, packetStatsFromPing str = some r →
        ∃ x y z : String, r = [x, y, z] ∧ isDigits x ∧ isDigits y ∧ 3 ≤ z.length ∧
          ∃ first mid last, z.data = first :: (mid ++ [last]) ∧ first.isDigit = true ∧
            last.isDigit = true) := by
  refine ⟨?_, ?_, ?_⟩
  · intro x y p hx hy hp
    have e : (packetLine x y p).data = x.data ++ (" packets transmitted, ".data ++ (y.data ++
        (" packets received, ".data ++ (p.data ++ ("% packet loss".data ++ []))))) := by
      simp [packetLine, String.data_append]
    rw [packet_none_iff, e, packet_skip_short_loss x.data y.data p.data [] hx hy hp]
    exact matchAt_nil_packet
  · intro host d env x y p a b c e hs hx hy hp ha hb hc he hdata
    obtain ⟨a1, a2, ea, ha1, ha2⟩ := isDecimal_data a ha
    obtain ⟨b1, b2, eb, hb1, hb2⟩ := isDecimal_data b hb
    obtain ⟨c1, c2, ec, hc1, hc2⟩ := isDecimal_data c hc
    obtain ⟨e1, e2, ee, he1, he2⟩ := isDecimal_data e he
    have ed : env.readData.data = x.data ++ (" packets transmitted, ".data ++ (y.data ++
        (" packets received, ".data ++ (p.data ++ ("% packet loss".data ++
          ('\n' :: ("round-trip min/avg/max/stddev = ".data ++
            (a.data ++ '/' :: (b.data ++ '/' :: (c.data ++ '/' :: (e.data ++
              (" ms".data ++ [])))))))))))) := by
      rw [hdata]
      simp [packetLine, timingLine, String.data_append]
    have hp0 : packetStatsFromPing env.readData = none := by
      rw [packet_none_iff, ed, packet_skip_short_loss x.data y.data p.data _ hx hy hp,
        packet_skip_char _ _ (by decide), ea, eb, ec, ee,
        List.append_assoc a1 ('.' :: a2), List.cons_append '.' a2,
        List.append_assoc b1 ('.' :: b2), List.cons_append '.' b2,
        List.append_assoc c1 ('.' :: c2), List.cons_append '.' c2,
        List.append_assoc e1 ('.' :: e2), List.cons_append '.' e2]
      rw [packet_skip_timing_line a1 a2 b1 b2 c1 c2 e1 e2 [] ha1.2 ha2.2 hb1.2 hb2.2 hc1.2 hc2.2
        he1.2 he2.2]
      exact matchAt_nil_packet
    have ht0 : timingStatsFromPing env.readData = some [a, b, c, e] := by
      rw [timingStatsFromPing_eq, ed, stats_skip_short_loss x.data y.data p.data _ hx hy hp,
        stats_skip_char _ _ (by decide),
        findFirst_skip_nondigits statsRegexp stats_starts_with_digit _ _ (by decide),
        findFirst_of_matchAt _ _ _ (matchAt_stats a.data b.data c.data e.data
          (" ms".data ++ [])
          (ea ▸ numberText_of_decimal a1 a2 ha1 ha2) (eb ▸ numberText_of_decimal b1 b2 hb1 hb2)
          (ec ▸ numberText_of_decimal c1 c2 hc1 hc2) (ee ▸ numberText_of_decimal e1 e2 he1 he2)
          (headNotDigit_cons ' ' _ (by decide)))]
      rfl
    have key := PingExec_of_steps host d env hs
    rw [ht0, hp0] at key
    simp only [Prod.mk.injEq] at key
    exact ⟨ht0, hp0, key.2, key.1⟩
  · intro str r h
    obtain ⟨pre, g1, g2, g3, post, _, l1, l2, l3, hr, _⟩ := packet_some_spec str r h
    obtain ⟨d, x, f, rfl, hd, _, hf⟩ := (lang_numberShape g3).1 l3
    refine ⟨String.mk g1, String.mk g2, String.mk (d ++ x :: f), hr,
      (lang_plus_digit g1).1 l1, (lang_plus_digit g2).1 l2, ?_, ?_⟩
    · have hd0 : 0 < d.length := List.length_pos.2 hd.1
      have hf0 : 0 < f.length := List.length_pos.2 hf.1
      simp only [String.length, List.length_append, List.length_cons]
      omega
    · obtain ⟨hd1, hd2⟩ := hd
      obtain ⟨hf1, hf2⟩ := hf
      cases d with
      | nil => exact absurd rfl hd1
      | cons d0 dt =>
        rcases List.eq_nil_or_concat f with h0 | ⟨fi, fl, hfl⟩
        · exact absurd h0 hf1
        · refine ⟨d0, dt ++ x :: fi, fl, ?_, hd2 d0 (by simp), hf2 fl (by rw [hfl]; simp)⟩
          rw [hfl]
          simp

/-- Witness of C10: a loss percentage of `0` and of `50`. -/
theorem short_loss_rejected_witness :
    packetStatsFromPing "5 packets transmitted, 5 packets received, 0% packet loss" = none ∧
      packetStatsFromPing "5 packets transmitted, 4 packets received, 50% packet loss" = none ∧
      (timingStatsFromPing shortLossEnv.readData
          = some ["110.555", "112.243", "113.908", "1.307"] ∧
        packetStatsFromPing shortLossEnv.readData = none ∧
        (PingExec "example.com" 5 shortLossEnv).err = some parseError ∧
        (PingExec "example.com" 5 shortLossEnv).stats = emptyPing) :=
  ⟨short_loss_rejected.1 "5" "5" "0" (by decide) (by decide) (by decide),
    short_loss_rejected.1 "5" "4" "50" (by decide) (by decide) (by decide),
    short_loss_rejected.2.1 "example.com" 5 shortLossEnv "5" "5" "0" "110.555" "112.243" "113.908"
      "1.307" ⟨rfl, rfl, rfl, rfl, rfl⟩ (by decide) (by decide) (by decide)
      ⟨"110", "555", by decide, by decide, by decide⟩
      ⟨"112", "243", by decide, by decide, by decide⟩
      ⟨"113", "908", by decide, by decide, by decide⟩
      ⟨"1", "307", by decide, by decide, by decide⟩ (by decide)⟩

/-! ## Greedy preference -/

theorem head_flatMap_split {α β : Type} (l : List α) (f : α → List β) (y : β)
    (h : (l.flatMap f).head? = some y) :
    ∃ l1 x l2, l = l1 ++ x :: l2 ∧ (∀ z ∈ l1, f z = []) ∧ (f x).head? = some y := by
  induction l with
  | nil => simp at h
  | cons a l ih =>
    rw [List.flatMap_cons] at h
    cases hfa : f a with
    | nil =>
      rw [hfa, List.nil_append] at h
      obtain ⟨l1, x, l2, e, h1, h2⟩ := ih h
      refine ⟨a :: l1, x, l2, by rw [e]; rfl, ?_, h2⟩
      intro z hz
      rcases List.mem_cons.1 hz with rfl | hz
      · exact hfa
      · exact h1 z hz
    | cons b bs =>
      rw [hfa] at h
      simp only [List.cons_append, List.head?_cons, Option.some.injEq] at h
      exact ⟨[], a, l, rfl, by simp, by rw [hfa, ← h]; rfl⟩

theorem plusRun_digit_eq (caps : List (List Char)) : ∀ n (s : List Char), s.length ≤ n →
    plusRun (run .digit) n { rest := s, caps := caps }
      = (digitSplits s).map fun t => { rest := t, caps := caps } := by
  intro n
  induction n with
  | zero =>
    intro s hs
    have : s = [] := List.length_eq_zero.1 (Nat.le_zero.1 hs)
    subst this
    simp [plusRun, run, digitSplits]
  | succ n ih =>
    intro s hs
    cases s with
    | nil => simp [plusRun, run, digitSplits]
    | cons c cs =>
      by_cases hc : c.isDigit = true
      · have hstep : run .digit { rest := c :: cs, caps := caps }
            = [{ rest := cs, caps := caps }] := by simp [run, hc]
        rw [plusRun, hstep]
        simp only [List.flatMap_cons, List.flatMap_nil, List.append_nil, List.length_cons,
          Nat.lt_succ_self, if_true]
        rw [ih cs (by simp only [List.length_cons] at hs; omega)]
        simp [digitSplits, hc]
      · have hstep : run .digit { rest := c :: cs, caps := caps } = [] := by simp [run, hc]
        rw [plusRun, hstep]
        simp [digitSplits, hc]

theorem run_plus_digit_eq (s : List Char) (caps : List (List Char)) :
    run (.plus .digit) { rest := s, caps := caps }
      = (digitSplits s).map fun t => { rest := t, caps := caps } := by
  simp only [run]
  exact plusRun_digit_eq caps _ s (Nat.le_refl _)

theorem digitSplits_mem (s t : List Char) :
    t ∈ digitSplits s ↔ ∃ d, (d ≠ [] ∧ allDigits d) ∧ s = d ++ t := by
  induction s with
  | nil =>
    simp only [digitSplits, List.not_mem_nil, false_iff]
    rintro ⟨d, ⟨hd, _⟩, e⟩
    have := e.symm
    simp only [List.append_eq_nil] at this
    exact hd this.1
  | cons c cs ih =>
    by_cases hc : c.isDigit = true
    · simp only [digitSplits, hc, if_true, List.mem_append, List.mem_singleton, ih]
      constructor
      · rintro (⟨d, ⟨_, hd⟩, e⟩ | rfl)
        · refine ⟨c :: d, ⟨by simp, ?_⟩, by rw [e]; rfl⟩
          intro x hx
          rcases List.mem_cons.1 hx with rfl | hx
          · exact hc
          · exact hd x hx
        · refine ⟨[c], ⟨by simp, ?_⟩, rfl⟩
          intro x hx
          simp only [List.mem_singleton] at hx
          rw [hx]; exact hc
      · rintro ⟨d, ⟨hne, hd⟩, e⟩
        cases d with
        | nil => exact absurd rfl hne
        | cons x d1 =>
          simp only [List.cons_append, List.cons.injEq] at e
          by_cases h1 : d1 = []
          · right
            rw [e.2, h1]; rfl
          · left
            exact ⟨d1, ⟨h1, fun y hy => hd y (by simp [hy])⟩, e.2⟩
    · simp only [digitSplits, hc, Bool.false_eq_true, if_false, List.not_mem_nil, false_iff]
      rintro ⟨d, ⟨hne, hd⟩, e⟩
      cases d with
      | nil => exact hne rfl
      | cons x d1 =>
        simp only [List.cons_append, List.cons.injEq] at e
        exact hc (e.1 ▸ hd x (by simp))

theorem digitSplits_pairwise (s : List Char) :
    (digitSplits s).Pairwise fun a b => a.length < b.length := by
  induction s with
  | nil => simp [digitSplits]
  | cons c cs ih =>
    by_cases hc : c.isDigit = true
    · simp only [digitSplits, hc, if_true]
      rw [List.pairwise_append]
      refine ⟨ih, by simp, ?_⟩
      intro a ha b hb
      simp only [List.mem_singleton] at hb
      obtain ⟨d, ⟨hne, _⟩, e⟩ := (digitSplits_mem cs a).1 ha
      rw [hb, e, List.length_append]
      have : 0 < d.length := List.length_pos.2 hne
      omega
    · simp [digitSplits, hc]

/-- Greedy `\d+`: the preferred thread takes the longest run of digits after
which the rest of the search succeeds. -/
theorem greedy_digits (s : List Char) (caps : List (List Char)) (K : Thread → List Thread)
    (y : Thread)
    (h : ((run (.plus .digit) { rest := s, caps := caps }).flatMap K).head? = some y) :
    ∃ d t, (d ≠ [] ∧ allDigits d) ∧ s = d ++ t ∧
      (K { rest := t, caps := caps }).head? = some y ∧
      ∀ d1 t1, (d1 ≠ [] ∧ allDigits d1) → s = d1 ++ t1 → d.length < d1.length →
        K { rest := t1, caps := caps } = [] := by
  rw [run_plus_digit_eq, List.flatMap_map] at h
  obtain ⟨l1, t, l2, e, h1, h2⟩ := head_flatMap_split _ _ _ h
  have ht : t ∈ digitSplits s := by rw [e]; simp
  obtain ⟨d, hd, es⟩ := (digitSplits_mem s t).1 ht
  refine ⟨d, t, hd, es, h2, ?_⟩
  intro d1 t1 hd1 es1 hlt
  have ht1 : t1 ∈ digitSplits s := (digitSplits_mem s t1).2 ⟨d1, hd1, es1⟩
  have hlen : t1.length < t.length := by
    have := congrArg List.length es
    rw [es1] at this
    simp only [List.length_append] at this
    omega
  have hp := digitSplits_pairwise s
  rw [e, List.pairwise_append, List.pairwise_cons] at hp
  rw [e] at ht1
  rcases List.mem_append.1 ht1 with h3 | h3
  · exact h1 t1 h3
  · rcases List.mem_cons.1 h3 with h4 | h4
    · rw [h4] at hlen; omega
    · have := hp.2.1.1 t1 h4
      omega

theorem any_step (s : List Char) (caps : List (List Char)) (K : Thread → List Thread)
    (y : Thread) (h : ((run .anyNotNL { rest := s, caps := caps }).flatMap K).head? = some y) :
    ∃ x t, s = x :: t ∧ x ≠ '\n' ∧ (K { rest := t, caps := caps }).head? = some y := by
  cases s with
  | nil => simp [run] at h
  | cons x t =>
    by_cases hx : x = '\n'
    · simp [run, hx] at h
    · refine ⟨x, t, rfl, hx, ?_⟩
      simpa [run, hx] using h

theorem lit_step (c : Char) (cs s : List Char) (caps : List (List Char))
    (K : Thread → List Thread) (y : Thread)
    (h : ((run (.lit c cs) { rest := s, caps := caps }).flatMap K).head? = some y) :
    ∃ t, s = (c :: cs) ++ t ∧ (K { rest := t, caps := caps }).head? = some y := by
  simp only [run] at h
  split at h
  · rename_i r hr
    exact ⟨r, (dropLit_eq_some _ _ _).1 hr, by simpa using h⟩
  · simp at h

theorem run_eq_nil_iff (r : Regex) (st : Thread) : run r st = [] ↔ ¬ StartsMatch r st.rest := by
  constructor
  · rintro h ⟨m, rest, e, hm⟩
    obtain ⟨st1, h1, _⟩ := run_complete r m hm st rest e
    rw [h] at h1
    simp at h1
  · intro h
    cases hr : run r st with
    | nil => rfl
    | cons a l =>
      obtain ⟨m, hm, e⟩ := run_sound r st a (by rw [hr]; simp)
      exact absurd ⟨m, a.rest, e, hm⟩ h

theorem tracks_run (r : Regex) : Tracks (run r) (StartsMatch r) :=
  fun st => run_eq_nil_iff r st

theorem tracks_pure : Tracks (fun st => [st]) (fun _ => True) := by
  intro st
  simp

theorem numParse_ok_iff (g : List Char) :
    Lang numberShape g ↔ ∃ p : NumParse, p.ok ∧ g = p.text := by
  rw [lang_numberShape]
  constructor
  · rintro ⟨d, x, e, rfl, hd, hx, he⟩
    exact ⟨⟨d, x, e⟩, ⟨hd, hx, he⟩, rfl⟩
  · rintro ⟨p, ⟨hd, hx, he⟩, rfl⟩
    exact ⟨p.d, p.x, p.e, rfl, hd, hx, he⟩

theorem numParse_eq_of_lengths (p q : NumParse) (t t1 : List Char)
    (e : q.text ++ t1 = p.text ++ t) (h1 : q.d.length = p.d.length)
    (h2 : q.e.length = p.e.length) : q = p ∧ t1 = t := by
  obtain ⟨pd, px, pe⟩ := p
  obtain ⟨qd, qx, qe⟩ := q
  simp only [NumParse.text, List.append_assoc, List.cons_append] at e h1 h2
  obtain ⟨e1, e2⟩ := List.append_inj e h1
  simp only [List.cons.injEq] at e2
  obtain ⟨e3, e4⟩ := List.append_inj e2.2 h2
  exact ⟨by rw [e1, e2.1, e3], e4⟩

/-- Greedy `(\d+.\d+)`: the preferred thread takes, first, the longest first
run of digits and then the longest second run of digits after which the rest
of the search succeeds. -/
theorem group_number_greedy (k : Nat) (s : List Char) (caps : List (List Char))
    (K : Thread → List Thread) (Q : List Char → Prop) (hK : Tracks K Q) (y : Thread)
    (h : ((run (.group k numberShape) { rest := s, caps := caps }).flatMap K).head? = some y) :
    ∃ (p : NumParse) (t : List Char), p.ok ∧ s = p.text ++ t ∧
      (K { rest := t, caps := caps.set k p.text }).head? = some y ∧
      ∀ (q : NumParse) (t1 : List Char), q.ok → s = q.text ++ t1 → Q t1 →
        q.d.length < p.d.length ∨ (q.d.length = p.d.length ∧ q.e.length ≤ p.e.length) := by
  have E : (run (.group k numberShape) { rest := s, caps := caps }).flatMap K
      = (run (.plus .digit) { rest := s, caps := caps }).flatMap fun s1 =>
          (run .anyNotNL s1).flatMap fun s2 =>
            (run (.plus .digit) s2).flatMap fun s3 =>
              K { rest := s3.rest,
                  caps := s3.caps.set k (s.take (s.length - s3.rest.length)) } := by
    show ((((run (.plus .digit) { rest := s, caps := caps }).flatMap fun s1 =>
      (run .anyNotNL s1).flatMap (run (.plus .digit))).map _).flatMap K) = _
    rw [List.flatMap_map, List.flatMap_assoc]
    congr 1
    funext s1
    rw [List.flatMap_assoc]
  rw [E] at h
  obtain ⟨d, t1, hd, e1, h1, g1⟩ := greedy_digits s caps _ y h
  obtain ⟨x, t2, e2, hx, h2⟩ := any_step t1 caps _ y h1
  obtain ⟨e, t, he, e3, h3, g3⟩ := greedy_digits t2 caps _ y h2
  have es : s = (d ++ x :: e) ++ t := by rw [e1, e2, e3]; simp
  have hcap : s.take (s.length - t.length) = d ++ x :: e := by
    rw [es]; exact take_length_sub _ _
  simp only [hcap] at h3 g3
  refine ⟨⟨d, x, e⟩, t, ⟨hd, hx, he⟩, es, h3, ?_⟩
  intro q u hq eq hQ
  obtain ⟨qd, qx, qe⟩ := q
  obtain ⟨hqd, hqx, hqe⟩ := hq
  simp only [NumParse.text, List.append_assoc, List.cons_append] at eq ⊢
  simp only at hqd hqx hqe
  rcases Nat.lt_trichotomy qd.length d.length with hlt | heq | hgt
  · exact Or.inl hlt
  · right
    refine ⟨heq, ?_⟩
    by_contra hcon
    have hgt : e.length < qe.length := by omega
    have e4 : qd ++ qx :: (qe ++ u) = d ++ t1 := by rw [← eq, e1]
    obtain ⟨_, e5⟩ := List.append_inj e4 heq
    rw [e2] at e5
    simp only [List.cons.injEq] at e5
    have hnil := g3 qe u hqe e5.2.symm hgt
    have hsame : s.take (s.length - u.length) = qd ++ qx :: qe := by
      rw [eq, ← List.cons_append, ← List.append_assoc]; exact take_length_sub _ _
    simp only [hsame] at hnil
    exact (hK _).1 hnil hQ
  · exfalso
    have hnil := g1 qd (qx :: (qe ++ u)) hqd eq hgt
    simp only [run, List.flatMap_eq_nil_iff] at hnil
    have hx2 : qx ≠ '\n' := hqx
    have h5 := hnil { rest := qe ++ u, caps := caps } (by simp [hx2])
    have h6 := h5 { rest := u, caps := caps } (by
      have := run_plus_digit_eq (qe ++ u) caps
      simp only [run] at this
      rw [this]
      simp only [List.mem_map]
      exact ⟨u, (digitSplits_mem _ _).2 ⟨qe, hqe, rfl⟩, rfl⟩)
    exact (hK _).1 h6 hQ

theorem slashJoin_cons (p : NumParse) (ps : List NumParse) (h : ps ≠ []) :
    slashJoin (p :: ps) = p.text ++ '/' :: slashJoin ps := by
  cases ps with
  | nil => exact absurd rfl h
  | cons q qs => rfl

theorem ne_nil_of_length_succ {α : Type} (l : List α) (n : Nat) (h : l.length = n + 1) :
    l ≠ [] := by
  intro e
  rw [e] at h
  simp at h

/-- The texts of `chain k n` are the `n + 1` readings joined by `/`. -/
theorem lang_chain (n : Nat) : ∀ (k : Nat) (m : List Char),
    Lang (chain k n) m ↔
      ∃ ps : List NumParse, ps.length = n + 1 ∧ (∀ p ∈ ps, p.ok) ∧ m = slashJoin ps := by
  induction n with
  | zero =>
    intro k m
    show Lang numberShape m ↔ _
    rw [numParse_ok_iff]
    constructor
    · rintro ⟨p, hp, rfl⟩
      exact ⟨[p], rfl, by simpa using hp, rfl⟩
    · rintro ⟨ps, hl, hok, rfl⟩
      match ps, hl, hok with
      | [p], _, hok => exact ⟨p, hok p (by simp), rfl⟩
  | succ n ih =>
    intro k m
    constructor
    · rintro ⟨u, v, rfl, hu, w, z, rfl, hw, hz⟩
      have ew : w = ['/'] := hw
      obtain ⟨p, hp, rfl⟩ := (numParse_ok_iff u).1 hu
      obtain ⟨ps, hl, hok, rfl⟩ := (ih (k + 1) z).1 hz
      refine ⟨p :: ps, by simp [hl], ?_, ?_⟩
      · intro q hq
        rcases List.mem_cons.1 hq with rfl | hq
        · exact hp
        · exact hok q hq
      · rw [slashJoin_cons p ps (ne_nil_of_length_succ ps n hl), ew]
        rfl
    · rintro ⟨ps, hl, hok, rfl⟩
      cases ps with
      | nil => simp at hl
      | cons p ps1 =>
        have hl1 : ps1.length = n + 1 := by simpa using hl
        rw [slashJoin_cons p ps1 (ne_nil_of_length_succ ps1 n hl1)]
        exact ⟨p.text, _, rfl, (numParse_ok_iff _).2 ⟨p, hok p (by simp), rfl⟩, ['/'], _, rfl, rfl,
          (ih (k + 1) _).2 ⟨ps1, hl1, fun q hq => hok q (by simp [hq]), rfl⟩⟩

/-- Greedy chain of groups: the preferred thread reads the text as the
`n + 1` readings whose digit-run lengths are lexicographically greatest among
all readings of the text by the pattern, and each group captures its reading. -/
theorem chain_greedy (n : Nat) : ∀ (k : Nat) (s : List Char) (caps : List (List Char))
    (y : Thread), (run (chain k n) { rest := s, caps := caps }).head? = some y →
    ∃ ps : List NumParse, ps.length = n + 1 ∧ (∀ p ∈ ps, p.ok) ∧ s = slashJoin ps ++ y.rest ∧
      y.caps = setCaps k ps caps ∧
      ∀ (qs : List NumParse) (t1 : List Char), qs.length = n + 1 → (∀ q ∈ qs, q.ok) →
        s = slashJoin qs ++ t1 → lexLe (greedKey qs) (greedKey ps) := by
  induction n with
  | zero =>
    intro k s caps y h
    have h0 : ((run (.group k numberShape) { rest := s, caps := caps }).flatMap
        fun st => [st]).head? = some y := by
      rw [List.flatMap_singleton']
      exact h
    obtain ⟨p, t, hp, es, hy, hg⟩ := group_number_greedy k s caps _ _ tracks_pure y h0
    simp only [List.head?_cons, Option.some.injEq] at hy
    subst hy
    refine ⟨[p], rfl, by simpa using hp, es, rfl, ?_⟩
    intro qs t1 hl hok eq
    match qs, hl, hok, eq with
    | [q], _, hok, eq =>
      rcases hg q t1 (hok q (by simp)) eq trivial with h1 | ⟨h1, h2⟩
      · exact Or.inl h1
      · refine Or.inr ⟨h1, ?_⟩
        rcases Nat.lt_or_ge q.e.length p.e.length with h3 | h3
        · exact Or.inl h3
        · exact Or.inr ⟨by omega, trivial⟩
  | succ n ih =>
    intro k s caps y h
    have h0 : ((run (.group k numberShape) { rest := s, caps := caps }).flatMap
        (run (.cat (.lit '/' []) (chain (k + 1) n)))).head? = some y := h
    obtain ⟨p, t, hp, es, hy, hg⟩ := group_number_greedy k s caps _ _ (tracks_run _) y h0
    have hy1 : ((run (.lit '/' []) { rest := t, caps := caps.set k p.text }).flatMap
        (run (chain (k + 1) n))).head? = some y := hy
    obtain ⟨t2, et, hy2⟩ := lit_step '/' [] t _ _ y hy1
    obtain ⟨ps, hl, hok, es2, hc, hopt⟩ := ih (k + 1) t2 _ y hy2
    have hne := ne_nil_of_length_succ ps n hl
    refine ⟨p :: ps, by simp [hl], ?_, ?_, hc, ?_⟩
    · intro q hq
      rcases List.mem_cons.1 hq with rfl | hq
      · exact hp
      · exact hok q hq
    · rw [slashJoin_cons p ps hne, es, et, es2]
      simp
    · intro qs t1 hlq hokq eq
      cases qs with
      | nil => simp at hlq
      | cons q qs1 =>
        have hl1 : qs1.length = n + 1 := by simpa using hlq
        rw [slashJoin_cons q qs1 (ne_nil_of_length_succ qs1 n hl1)] at eq
        have eq1 : s = q.text ++ ('/' :: (slashJoin qs1 ++ t1)) := by rw [eq]; simp
        have hQ : StartsMatch (.cat (.lit '/' []) (chain (k + 1) n))
            ('/' :: (slashJoin qs1 ++ t1)) :=
          ⟨'/' :: slashJoin qs1, t1, rfl, ['/'], _, rfl, rfl,
            (lang_chain n (k + 1) _).2 ⟨qs1, hl1, fun r hr => hokq r (by simp [hr]), rfl⟩⟩
        have hkey : greedKey (q :: qs1) = q.d.length :: q.e.length :: greedKey qs1 := rfl
        have hkey2 : greedKey (p :: ps) = p.d.length :: p.e.length :: greedKey ps := rfl
        rw [hkey, hkey2]
        rcases hg q _ (hokq q (by simp)) eq1 hQ with h1 | ⟨h1, h2⟩
        · exact Or.inl h1
        · refine Or.inr ⟨h1, ?_⟩
          rcases Nat.lt_or_ge q.e.length p.e.length with h3 | h3
          · exact Or.inl h3
          · refine Or.inr ⟨by omega, ?_⟩
            have e3 : q.text ++ ('/' :: (slashJoin qs1 ++ t1)) = p.text ++ t := by
              rw [← eq1, es]
            obtain ⟨_, e4⟩ := numParse_eq_of_lengths p q _ _ e3 h1 (by omega)
            rw [et] at e4
            simp only [List.cons_append, List.nil_append, List.cons.injEq, true_and] at e4
            exact hopt qs1 t1 hl1 (fun r hr => hokq r (by simp [hr])) e4.symm

theorem statsRegexp_chain : statsRegexp.prog = chain 1 3 := rfl

theorem no_two_nondigits (p : NumParse) (hp : p.ok) (u v : List Char) (c1 c2 : Char)
    (h1 : c1.isDigit = false) (h2 : c2.isDigit = false) (e : p.text = u ++ c1 :: c2 :: v) :
    False := by
  obtain ⟨d, x, f⟩ := p
  obtain ⟨⟨_, hd⟩, _, ⟨_, hf⟩⟩ := hp
  simp only [NumParse.text] at e
  simp only at hd hf
  have k : ∀ c : Char, c.isDigit = true → c.isDigit = false → False := by
    intro c a b
    rw [a] at b
    exact absurd b (by simp)
  rcases List.append_eq_append_iff.1 e with ⟨a, ha, hb⟩ | ⟨a, ha, hb⟩
  · cases a with
    | nil =>
      simp only [List.nil_append, List.cons.injEq] at hb
      exact k c2 (hf c2 (by rw [hb.2]; simp)) h2
    | cons a0 a1 =>
      simp only [List.cons_append, List.cons.injEq] at hb
      exact k c1 (hf c1 (by rw [hb.2]; simp)) h1
  · cases a with
    | nil =>
      simp only [List.nil_append, List.cons.injEq] at hb
      exact k c2 (hf c2 (by rw [← hb.2]; simp)) h2
    | cons a0 a1 =>
      simp only [List.cons_append, List.cons.injEq] at hb
      exact k c1 (hd c1 (by rw [ha, hb.1]; simp)) h1

theorem number_percent_unique (g h w w1 : List Char) (hg : Lang numberShape g)
    (hh : Lang numberShape h) (e : g ++ '%' :: ' ' :: w = h ++ '%' :: ' ' :: w1) : g = h := by
  obtain ⟨p, hp, rfl⟩ := (numParse_ok_iff g).1 hg
  obtain ⟨q, hq, rfl⟩ := (numParse_ok_iff h).1 hh
  rcases List.append_eq_append_iff.1 e with ⟨a, ha, hb⟩ | ⟨a, ha, hb⟩
  · rcases a with _ | ⟨a0, _ | ⟨a1, a2⟩⟩
    · simpa using ha.symm
    · simp at hb
    · simp only [List.cons_append, List.cons.injEq] at hb
      exfalso
      rw [← hb.1, ← hb.2.1] at ha
      exact no_two_nondigits q hq _ _ _ _ (by decide) (by decide) ha
  · rcases a with _ | ⟨a0, _ | ⟨a1, a2⟩⟩
    · simpa using ha
    · simp at hb
    · simp only [List.cons_append, List.cons.injEq] at hb
      exfalso
      rw [← hb.1, ← hb.2.1] at ha
      exact no_two_nondigits p hp _ _ _ _ (by decide) (by decide) ha

/-- All occurrences of the packet pattern that begin at one position have the
same three fields. -/
theorem packet_parse_unique (g1 g2 g3 h1 h2 h3 w w1 : List Char)
    (a1 : Lang (.plus .digit) g1) (a2 : Lang (.plus .digit) g2) (a3 : Lang numberShape g3)
    (b1 : Lang (.plus .digit) h1) (b2 : Lang (.plus .digit) h2) (b3 : Lang numberShape h3)
    (e : g1 ++ (" packets transmitted, ".data ++ (g2 ++ (" packets received, ".data ++
          (g3 ++ ("% packet loss".data ++ w)))))
        = h1 ++ (" packets transmitted, ".data ++ (h2 ++ (" packets received, ".data ++
          (h3 ++ ("% packet loss".data ++ w1)))))) :
    g1 = h1 ∧ g2 = h2 ∧ g3 = h3 := by
  have c1 := ((lang_plus_digit g1).1 a1).2
  have c2 := ((lang_plus_digit g2).1 a2).2
  have d1 := ((lang_plus_digit h1).1 b1).2
  have d2 := ((lang_plus_digit h2).1 b2).2
  obtain ⟨e1, e2⟩ := digits_align g1 h1 _ _ ' ' ' ' c1 d1 (by decide) (by decide) e
  simp only [List.cons.injEq, true_and] at e2
  have e3 := List.append_cancel_left e2
  obtain ⟨e4, e5⟩ := digits_align g2 h2 _ _ ' ' ' ' c2 d2 (by decide) (by decide) e3
  simp only [List.cons.injEq, true_and] at e5
  have e6 := List.append_cancel_left e5
  exact ⟨e1, e4, number_percent_unique g3 h3 _ _ a3 b3 e6⟩

/-- What a successful timing extraction returns: the readings of the
preferred occurrence at the leftmost position. -/
theorem timing_greedy_spec (str : String) (r : List String)
    (h : timingStatsFromPing str = some r) :
    ∃ (pre : List Char) (ps : List NumParse) (post : List Char),
      str.data = pre ++ (slashJoin ps ++ post) ∧ ps.length = 4 ∧ (∀ p ∈ ps, p.ok) ∧
      r = ps.map (fun p => String.mk p.text) ∧
      (∀ p1 p2, pre = p1 ++ p2 → p2 ≠ [] →
        ¬ StartsMatch statsRegexp.prog (p2 ++ (slashJoin ps ++ post))) ∧
      ∀ (qs : List NumParse) (post1 : List Char), qs.length = 4 → (∀ q ∈ qs, q.ok) →
        slashJoin ps ++ post = slashJoin qs ++ post1 → lexLe (greedKey qs) (greedKey ps) := by
  rw [timingStatsFromPing_eq] at h
  cases hf : findFirst statsRegexp str.data with
  | none => simp [hf] at h
  | some res =>
    obtain ⟨caps, rest⟩ := res
    obtain ⟨pre, suf, st, tl, e, hrun, hcaps, hrest, hleft⟩ := findFirst_eq_some _ _ _ _ hf
    have hhead : (run (chain 1 3) { rest := suf, caps := List.replicate 5 [] }).head?
        = some st := by
      have : run (chain 1 3) { rest := suf, caps := List.replicate 5 [] } = st :: tl := hrun
      rw [this]; rfl
    obtain ⟨ps, hl, hok, es, hc, hopt⟩ := chain_greedy 3 1 suf _ st hhead
    refine ⟨pre, ps, st.rest, by rw [e, es], hl, hok, ?_, by rw [← es]; exact hleft, ?_⟩
    · rw [hf] at h
      simp only [Option.map_some', Option.some.injEq] at h
      rw [← h, hcaps, hc]
      match ps, hl with
      | [p1, p2, p3, p4], _ => simp [setCaps, List.replicate]
    · intro qs post1 hlq hokq eq
      exact hopt qs post1 hlq hokq (by rw [es, eq])

theorem lexLe_antisymm : ∀ a b : List Nat, a.length = b.length → lexLe a b → lexLe b a →
    a = b := by
  intro a
  induction a with
  | nil =>
    intro b hl _ _
    exact (List.length_eq_zero.1 hl.symm).symm
  | cons x xs ih =>
    intro b hl h1 h2
    cases b with
    | nil => simp at hl
    | cons y ys =>
      simp only [lexLe] at h1 h2
      simp only [List.length_cons, Nat.add_right_cancel_iff] at hl
      rcases h1 with h1 | ⟨h1, h3⟩
      · rcases h2 with h2 | ⟨h2, _⟩ <;> omega
      · rcases h2 with h2 | ⟨_, h4⟩
        · omega
        · rw [h1, ih ys hl h3 h4]

theorem greedKey_length (ps : List NumParse) : (greedKey ps).length = 2 * ps.length := by
  induction ps with
  | nil => rfl
  | cons p ps ih =>
    have : greedKey (p :: ps) = p.d.length :: p.e.length :: greedKey ps := rfl
    rw [this]
    simp only [List.length_cons, ih]
    omega

/-- Two readings of the same text with the same digit-run lengths are the
same reading. -/
theorem readings_eq_of_key (n : Nat) : ∀ (ps qs : List NumParse) (t t1 : List Char),
    ps.length = n + 1 → qs.length = n + 1 → slashJoin ps ++ t = slashJoin qs ++ t1 →
    greedKey qs = greedKey ps → qs = ps := by
  induction n with
  | zero =>
    intro ps qs t t1 hp hq e hk
    match ps, qs, hp, hq, e, hk with
    | [p], [q], _, _, e, hk =>
      have hk1 : [q.d.length, q.e.length] = [p.d.length, p.e.length] := hk
      simp only [List.cons.injEq, and_true] at hk1
      have e1 : q.text ++ t1 = p.text ++ t := e.symm
      rw [(numParse_eq_of_lengths p q t t1 e1 hk1.1 hk1.2).1]
  | succ n ih =>
    intro ps qs t t1 hp hq e hk
    cases ps with
    | nil => simp at hp
    | cons p ps1 =>
      cases qs with
      | nil => simp at hq
      | cons q qs1 =>
        have hp1 : ps1.length = n + 1 := by simpa using hp
        have hq1 : qs1.length = n + 1 := by simpa using hq
        have hk1 : q.d.length :: q.e.length :: greedKey qs1
            = p.d.length :: p.e.length :: greedKey ps1 := hk
        simp only [List.cons.injEq] at hk1
        rw [slashJoin_cons p ps1 (ne_nil_of_length_succ ps1 n hp1),
          slashJoin_cons q qs1 (ne_nil_of_length_succ qs1 n hq1)] at e
        have e1 : q.text ++ ('/' :: (slashJoin qs1 ++ t1))
            = p.text ++ ('/' :: (slashJoin ps1 ++ t)) := by
          simpa using e.symm
        obtain ⟨e2, e3⟩ := numParse_eq_of_lengths p q _ _ e1 hk1.1 hk1.2.1
        simp only [List.cons.injEq, true_and] at e3
        rw [e2, ih ps1 qs1 t t1 hp1 hq1 e3.symm hk1.2.2]

/-- C9, amended (first match wins).  For every text in which the timing
pattern occurs, timingStatsFromPing returns a result, and every result is the
four substrings of the occurrence that (a) begins at the earliest position at
which any occurrence begins and (b) among the occurrences beginning there is
the one the greedy search prefers: reading an occurrence as
`d1 x1 e1 / d2 x2 e2 / d3 x3 e3 / d4 x4 e4` (digit runs `d`, `e` around one free
character `x`), the lengths `|d1|, |e1|, ..., |d4|, |e4|` of the returned
reading are lexicographically greatest, and no other reading attains them.
packetStatsFromPing likewise returns the three substrings of the occurrence of
the packet pattern that begins at the earliest position; all occurrences that
begin at one position have the same three substrings.  On
`1.1/2.2/3.3/4.4 x 5.5/6.6/7.7/8.8` the timing result is [1.1, 2.2, 3.3, 4.4]. -/
theorem first_match_wins (str : String) :
    (Occurs statsRegexp.prog str.data → ∃ r, timingStatsFromPing str = some r) ∧
      (∀ m, Lang statsRegexp.prog m ↔
        ∃ ps : List NumParse, ps.length = 4 ∧ (∀ p ∈ ps, p.ok) ∧ m = slashJoin ps) ∧
      (∀ r, timingStatsFromPing str = some r →
        ∃ (pre : List Char) (ps : List NumParse) (post : List Char),
          str.data = pre ++ slashJoin ps ++ post ∧ ps.length = 4 ∧ (∀ p ∈ ps, p.ok) ∧
          r = ps.map (fun p => String.mk p.text) ∧
          (∀ pre1 m1 post1, str.data = pre1 ++ m1 ++ post1 → Lang statsRegexp.prog m1 →
            pre.length ≤ pre1.length) ∧
          (∀ (qs : List NumParse) (post1 : List Char), qs.length = 4 → (∀ q ∈ qs, q.ok) →
            str.data = pre ++ slashJoin qs ++ post1 →
            lexLe (greedKey qs) (greedKey ps) ∧
              (lexLe (greedKey ps) (greedKey qs) → qs = ps))) ∧
      (Occurs packetLossRegexp.prog str.data → ∃ r, packetStatsFromPing str = some r) ∧
      (∀ r, packetStatsFromPing str = some r →
        ∃ pre g1 g2 g3 post,
          str.data = pre ++ (g1 ++ (" packets transmitted, ".data ++ (g2 ++
            (" packets received, ".data ++ (g3 ++ "% packet loss".data))))) ++ post ∧
          Lang (.plus .digit) g1 ∧ Lang (.plus .digit) g2 ∧ Lang numberShape g3 ∧
          Lang packetLossRegexp.prog (g1 ++ (" packets transmitted, ".data ++ (g2 ++
            (" packets received, ".data ++ (g3 ++ "% packet loss".data))))) ∧
          r = [String.mk g1, String.mk g2, String.mk g3] ∧
          (∀ pre1 m1 post1, str.data = pre1 ++ m1 ++ post1 → Lang packetLossRegexp.prog m1 →
            pre.length ≤ pre1.length) ∧
          (∀ h1 h2 h3 post1, Lang (.plus .digit) h1 → Lang (.plus .digit) h2 →
            Lang numberShape h3 →
            str.data = pre ++ (h1 ++ (" packets transmitted, ".data ++ (h2 ++
              (" packets received, ".data ++ (h3 ++ "% packet loss".data))))) ++ post1 →
            h1 = g1 ∧ h2 = g2 ∧ h3 = g3)) ∧
      timingStatsFromPing "1.1/2.2/3.3/4.4 x 5.5/6.6/7.7/8.8"
        = some ["1.1", "2.2", "3.3", "4.4"] := by
  refine ⟨?_, ?_, ?_, ?_, ?_, by decide⟩
  · intro hocc
    cases h : timingStatsFromPing str with
    | none => exact absurd hocc (by rw [← findFirst_eq_none_iff, ← timing_none_iff]; exact h)
    | some r => exact ⟨r, rfl⟩
  · intro m
    exact lang_chain 3 1 m
  · intro r h
    obtain ⟨pre, ps, post, e, hl, hok, hr, hleft, hopt⟩ := timing_greedy_spec str r h
    refine ⟨pre, ps, post, by rw [e]; simp, hl, hok, hr, ?_, ?_⟩
    · intro pre1 m1 post1 e1 hm
      exact leftmost_of_no_start _ pre _ pre1 m1 post1 hleft (by rw [← e, e1]) hm
    · intro qs post1 hlq hokq eq
      have eq1 : slashJoin ps ++ post = slashJoin qs ++ post1 := by
        rw [e, List.append_assoc] at eq
        exact List.append_cancel_left eq
      have hle := hopt qs post1 hlq hokq eq1
      refine ⟨hle, fun hge => ?_⟩
      exact readings_eq_of_key 3 ps qs post post1 hl hlq eq1
        (lexLe_antisymm _ _ (by rw [greedKey_length, greedKey_length, hl, hlq]) hle hge)
  · intro hocc
    cases h : packetStatsFromPing str with
    | none => exact absurd hocc (by rw [← findFirst_eq_none_iff, ← packet_none_iff]; exact h)
    | some r => exact ⟨r, rfl⟩
  · intro r h
    obtain ⟨pre, g1, g2, g3, post, e, l1, l2, l3, hr, hleft⟩ := packet_some_spec str r h
    refine ⟨pre, g1, g2, g3, post, by rw [e]; simp, l1, l2, l3,
      lang_packet_of_parts g1 g2 g3 l1 l2 l3, hr, ?_, ?_⟩
    · intro pre1 m1 post1 e1 hm
      exact leftmost_of_no_start _ pre _ pre1 m1 post1 hleft (by rw [← e, e1]) hm
    · intro h1 h2 h3 post1 b1 b2 b3 eq
      have eq1 : g1 ++ (" packets transmitted, ".data ++ (g2 ++ (" packets received, ".data ++
            (g3 ++ ("% packet loss".data ++ post)))))
          = h1 ++ (" packets transmitted, ".data ++ (h2 ++ (" packets received, ".data ++
            (h3 ++ ("% packet loss".data ++ post1))))) := by
        rw [e] at eq
        simp only [List.append_assoc] at eq
        exact List.append_cancel_left eq
      obtain ⟨u1, u2, u3⟩ := packet_parse_unique g1 g2 g3 h1 h2 h3 post post1 l1 l2 l3 b1 b2 b3 eq1
      exact ⟨u1.symm, u2.symm, u3.symm⟩

end Ping
